import Mathlib

/-!
Shallow embedding of the `input_to_schema` conversion engine.

The repository converts between annotated TypeScript record types and a
JSON-Schema-like artifact.  The primary engine variant lives in
`src/unnamed/part_000`; `src/index.ts` and `src/unnamed/part_003` are earlier
variants of the same functions.  This file embeds the parts of the engine the
claims are about:

* `cleanUpSchema` (the schema normalizer, `src/unnamed/part_000` lines 536-569),
* `convertTypeToSchema` / `convertObjectToSchema` / `convertPrimitiveToSchema` /
  `convertEnumlikeIntoSchema` / `convertArrayToSchema` / `convertInputIntoSchema`
  (the forward walker, `src/unnamed/part_000` lines 119-297),
* `getJsDocFromNode` (the documentation-tag collector, lines 18-50),
* `convertJSDocToSchema` (the validated tag collector, lines 155-178),
* `convertSchemaToType` / `convertJsDoccableToString` (the reverse emitter,
  lines 299-394).

JavaScript objects are modelled as insertion-ordered association lists with
pairwise-distinct keys (a real JS object can never hold a duplicate key);
`Map.set`, object spread and bracket assignment all share the same
"update the existing entry in place, otherwise append" semantics, modelled by
`setKey`.  JS `undefined` is an explicit `Value.undef` so that the pruning of
undefined-valued fields can be stated.
-/

namespace InputToSchema

/-- A JavaScript runtime value, as far as the engine manipulates them:
`undefined`, `null`, booleans, numbers (the engine only ever produces and
compares integral literals, so `Int` is used), strings, arrays and plain
objects.  Objects are insertion-ordered association lists. -/
inductive Value where
  | undef : Value
  | null : Value
  | bool : Bool → Value
  | num : Int → Value
  | str : String → Value
  | arr : List Value → Value
  | obj : List (String × Value) → Value

/-- A JavaScript object: an insertion-ordered association list. -/
abbrev JsObj := List (String × Value)

/-- Property access `o.k` / `o[k]`: the first entry with the key, or
`undefined` when the key is absent. -/
def lookupD (fs : JsObj) (k : String) : Value :=
  match fs with
  | [] => .undef
  | (k', v) :: rest => if k' = k then v else lookupD rest k

/-- Does the object carry the key at all (even with an `undefined` value)? -/
def hasKey (fs : JsObj) (k : String) : Bool :=
  match fs with
  | [] => false
  | (k', _) :: rest => k' == k || hasKey rest k

/-- `Map.set` / object-spread / bracket-assignment semantics: update an
existing entry in place (keeping its position), otherwise append. -/
def setKey (fs : JsObj) (k : String) (v : Value) : JsObj :=
  match fs with
  | [] => [(k, v)]
  | (k', v') :: rest => if k' = k then (k, v) :: rest else (k', v') :: setKey rest k v

/-- `Map.delete`: remove every entry with the key. -/
def eraseKey (fs : JsObj) (k : String) : JsObj :=
  fs.filter (fun p => !(p.1 == k))

/-- The keys of an object, in order. -/
def keysOf (fs : JsObj) : List String := fs.map Prod.fst

/-- JavaScript truthiness. -/
def truthy : Value → Bool
  | .undef => false
  | .null => false
  | .bool b => b
  | .num n => n != 0
  | .str s => s != ""
  | .arr _ => true
  | .obj _ => true

/-- JavaScript nullishness (`x ?? y` / `x ??= y` fire on these). -/
def isNullish : Value → Bool
  | .undef => true
  | .null => true
  | _ => false

/-- `v === undefined`. -/
def isUndef : Value → Bool
  | .undef => true
  | _ => false

/-- `v === 's'` for a string literal `s` (JS strict equality against a
string is true exactly for the equal string). -/
def eqStr (v : Value) (s : String) : Bool :=
  match v with
  | .str t => t == s
  | _ => false

/-- `{ ...base, ...extra }` with `base` already materialised: fold `extra`'s
entries onto `base` with `setKey` (a later duplicate key overrides the value
but keeps the first position, exactly as in JS object literals). -/
def objSpread (base : JsObj) (extra : JsObj) : JsObj :=
  extra.foldl (fun acc p => setKey acc p.1 p.2) base

/-! ### The schema normalizer, `cleanUpSchema` (`src/unnamed/part_000` 536-569)

```js
function cleanUpSchema(unorderedSchema) {
    const schema = new Map();
    schema.set('title', unorderedSchema.title);
    schema.set('type', unorderedSchema.type);
    schema.set('description', unorderedSchema.description);
    schema.set('editor', unorderedSchema.editor);
    for (const key of Object.keys(unorderedSchema)) {
        if (['title', 'type', 'editor', 'description'].includes(key)) continue;
        schema.set(key, unorderedSchema[key]);
    }
    if (schema.get('type') === 'object' && schema.get('properties')) {
        const properties = schema.get('properties');
        for (const name of Object.keys(properties))
            properties[name] = cleanUpSchema(properties[name]);
    }
    if (schema.get('type') !== 'object') schema.delete('required');
    for (const key of schema.keys())
        if (schema.get(key) === undefined) schema.delete(key);
    return Object.fromEntries(schema);
}
```

Since the four reordered keys are set into the map first and then skipped by
the copying loop, the map's values under `'type'` and `'properties'` (the
keys of a JS object being unique) agree with the input object's, so the
recursion condition is evaluated here on the input object up front; the
in-place mutation of the shared `properties` object is rendered by rewriting
the `properties` entry before the reordering copy. -/

/-- The skip list `['title', 'type', 'editor', 'description']`. -/
def isReorderedKey (k : String) : Bool :=
  k == "title" || k == "type" || k == "editor" || k == "description"

/-- The first four `schema.set(...)` calls of `cleanUpSchema`. -/
def reorderBase (fs : JsObj) : JsObj :=
  [("title", lookupD fs "title"), ("type", lookupD fs "type"),
   ("description", lookupD fs "description"), ("editor", lookupD fs "editor")]

/-- One step of the copying loop: skip the four reordered keys, `Map.set`
everything else. -/
def reorderStep (acc : JsObj) (p : String × Value) : JsObj :=
  if isReorderedKey p.1 then acc else setKey acc p.1 p.2

/-- The copying loop of `cleanUpSchema` over the input object's entries. -/
def restFold (l acc : JsObj) : JsObj :=
  l.foldl reorderStep acc

/-- The map-building phase of `cleanUpSchema`: `title`, `type`,
`description`, `editor` are set first (possibly to `undefined`), then every
other key is copied in input order. -/
def cleanReorder (fs : JsObj) : JsObj :=
  restFold fs (reorderBase fs)

/-- The final phase of `cleanUpSchema`: drop `required` unless the `type` is
`'object'`, then drop every `undefined`-valued entry. -/
def cleanFinish (m1 : JsObj) : JsObj :=
  (if eqStr (lookupD m1 "type") "object" then m1 else eraseKey m1 "required").filter
    (fun p => !(isUndef p.2))

/-- The recursion condition of `cleanUpSchema`:
`schema.get('type') === 'object' && schema.get('properties')`. -/
def cleanRecurses (fs : JsObj) : Bool :=
  eqStr (lookupD fs "type") "object" && truthy (lookupD fs "properties")

mutual

/-- Rewrites every `properties` entry of an object by cleaning the schemas
inside it (the in-place `properties[name] = cleanUpSchema(properties[name])`
loop, applied to the object that both the map and the input reference). -/
def cleanInto : JsObj → JsObj
  | [] => []
  | (k, v) :: rest =>
    (k, if k == "properties" then cleanPropsVal v else v) :: cleanInto rest
termination_by fs => (sizeOf fs, 0)

/-- Cleans the value stored under `properties`: each member schema is cleaned.
(On a `SchemaProperty` tree the value is always an object of objects; other
values are returned unchanged, a case the JS loop only meets outside the
`SchemaProperty` input type.) -/
def cleanPropsVal : Value → Value
  | .obj pfs => .obj (cleanEntries pfs)
  | v => v
termination_by v => (sizeOf v, 0)

/-- Cleans every member of a `properties` mapping. -/
def cleanEntries : List (String × Value) → List (String × Value)
  | [] => []
  | (k, w) :: rest => (k, cleanUpVal w) :: cleanEntries rest
termination_by l => (sizeOf l, 0)

/-- `cleanUpSchema` applied to a member value (always an object inside a
`SchemaProperty` tree). -/
def cleanUpVal : Value → Value
  | .obj gs => .obj (cleanUpSchema gs)
  | v => v
termination_by v => (sizeOf v, 0)

/-- `cleanUpSchema` from `src/unnamed/part_000` (the normalizer): clean the
members under `properties` in place when the node is an object with truthy
`properties`, rebuild the map with the four reordered keys first, drop
`required` on non-object nodes, prune `undefined` values. -/
def cleanUpSchema (fs : JsObj) : JsObj :=
  cleanFinish (cleanReorder (if cleanRecurses fs then cleanInto fs else fs))
termination_by (sizeOf fs, 1)

end

/-! ### The type graph

The walker consumes `ts.Type` nodes from the TypeScript checker.  The
embedding keeps exactly the observations the walker makes of a node: the
relevant bit-flags (`type.flags & ts.TypeFlags.X`), the literal values of the
union/enum branches (`type.types.map(t => t.value)`), whether
`checker.isArrayType(type)` holds, whether `type.intrinsicName === 'object'`,
and the object properties (`type.getProperties()`), each property carrying
its name and the documentation mapping that `getJsDocFromNode` extracts for
it (annotation parsing is a separate component, modelled below; the walker
model takes its per-member result as data). -/

/-- The bit-flags of a `ts.Type` that `convertTypeToSchema` and
`convertPrimitiveToSchema` test. -/
structure TsFlags where
  string : Bool
  number : Bool
  boolean : Bool
  enum : Bool
  enumLike : Bool
  enumLiteral : Bool
  union : Bool
  object : Bool
  nonPrimitive : Bool

mutual

/-- A type-introspection node. -/
inductive TsType where
  | node (flags : TsFlags) (branches : List Value) (isArrayType : Bool)
      (intrinsicNameObject : Bool) (props : List TsMember) : TsType

/-- One property of an object type: its name, the documentation mapping
extracted for it, and its own type. -/
inductive TsMember where
  | mk (name : String) (jsDoc : JsObj) (ty : TsType) : TsMember

end

def TsMember.name : TsMember → String
  | .mk n _ _ => n

def TsMember.jsDoc : TsMember → JsObj
  | .mk _ d _ => d

def TsMember.ty : TsMember → TsType
  | .mk _ _ t => t

def TsType.flags : TsType → TsFlags
  | .node f _ _ _ _ => f

def TsType.branches : TsType → List Value
  | .node _ b _ _ _ => b

def TsType.isArrayType : TsType → Bool
  | .node _ _ a _ _ => a

def TsType.intrinsicNameObject : TsType → Bool
  | .node _ _ _ i _ => i

def TsType.props : TsType → List TsMember
  | .node _ _ _ _ ps => ps

theorem TsType.sizeOf_props_lt (t : TsType) : sizeOf t.props < sizeOf t := by
  cases t with
  | node f b a i ps => simp [TsType.props]

/-! ### The forward walker (`src/unnamed/part_000` 119-297)

`eval` appears twice in the engine (`convertArrayToSchema`'s `uniqueItems`
and the evaluable documentation tags); the embedding abstracts the JS
evaluator as a function `jsEval : String → Except String Value`
(`.error` being a thrown exception's message). -/

/-- A fatal conversion outcome: an uncaught throw from `eval`, or the
`process.exit(1)` at the end of `convertTypeToSchema` for an unclassifiable
node (reached with the accumulated property path in scope). -/
inductive ConvErr where
  | evalFailed (msg : String)
  | unclassified (path : List String)

/-- JS `eval(v)` where `v` may not be a string: evaluating a non-string
returns it unchanged. -/
def jsEvalValue (jsEval : String → Except String Value) (v : Value) : Except String Value :=
  match v with
  | .str s => jsEval s
  | v => .ok v

/-- `doc.description ??= ""` (assigns when the field is `undefined`/`null`,
adding the key at the end when absent). -/
def descDefault (doc : JsObj) : JsObj :=
  if isNullish (lookupD doc "description") then setKey doc "description" (.str "") else doc

/-- `convertEnumlikeIntoEnum`: `enumlike.types.map((type) => type.value)`. -/
def convertEnumlikeIntoEnum : TsType → List Value
  | .node _ branches _ _ _ => branches

/-- `convertEnumlikeIntoSchema` (lines 140-153):
`{ type: 'string', enum: convertEnumlikeIntoEnum(...), ...doc }`. -/
def convertEnumlikeIntoSchema (t : TsType) (doc : JsObj) : JsObj :=
  objSpread [("type", .str "string"), ("enum", .arr (convertEnumlikeIntoEnum t))] doc

/-- `convertPrimitiveToSchema` (lines 180-205): the flag cascade with the
`{ ...doc, type: 'string' }` fallback for anything unrecognized. -/
def convertPrimitiveToSchema (flags : TsFlags) (doc : JsObj) : JsObj :=
  if flags.string then setKey doc "type" (.str "string")
  else if flags.number then setKey doc "type" (.str "integer")
  else if flags.boolean then setKey doc "type" (.str "boolean")
  else setKey doc "type" (.str "string")

/-- `convertArrayToSchema` (lines 207-217):
`{ type: 'array', ...doc, uniqueItems: doc.uniqueItems && eval(doc.uniqueItems) }`;
a throw from `eval` is uncaught here and kills the run. -/
def convertArrayToSchema (jsEval : String → Except String Value) (doc : JsObj) :
    Except ConvErr JsObj := do
  let u := lookupD doc "uniqueItems"
  let uv ← if truthy u then (jsEvalValue jsEval u).mapError ConvErr.evalFailed else .ok u
  .ok (setKey (objSpread [("type", .str "array")] doc) "uniqueItems" uv)

mutual

/-- `convertTypeToSchema` (lines 262-297): the load-bearing classification
cascade — enum-like first, then object, then primitive, then the `'object'`
intrinsic, else `process.exit(1)`. -/
def convertTypeToSchema (jsEval : String → Except String Value) (t : TsType)
    (doc : JsObj) (path : List String) : Except ConvErr JsObj :=
  let doc := descDefault doc
  let flags := t.flags
  if flags.enum || flags.enumLike || flags.enumLiteral || (flags.union && !flags.boolean) then
    .ok (convertEnumlikeIntoSchema t doc)
  else if flags.object then
    convertObjectToSchema jsEval t doc path
  else if !flags.nonPrimitive then
    .ok (convertPrimitiveToSchema flags doc)
  else if t.intrinsicNameObject then
    .ok (setKey doc "type" (.str "object"))
  else
    .error (.unclassified path)
termination_by (sizeOf t, 1)
decreasing_by
  exact Prod.Lex.right _ (by omega)

/-- `convertObjectToSchema` (lines 219-260): the array escape hatch, then the
per-property loop accumulating `schema` and `required`, then
`{ type: 'object', properties: schema, ...doc, required }`. -/
def convertObjectToSchema (jsEval : String → Except String Value) (t : TsType)
    (doc : JsObj) (path : List String) : Except ConvErr JsObj :=
  if t.isArrayType then convertArrayToSchema jsEval doc
  else do
    let (schema, required) ← convertProps jsEval t.props path [] []
    .ok (setKey (objSpread [("type", .str "object"), ("properties", .obj schema)] doc)
          "required" (.arr (required.map .str)))
termination_by (sizeOf t, 0)
decreasing_by
  exact Prod.Lex.left _ _ (TsType.sizeOf_props_lt t)

/-- The `for (const property of properties)` loop of `convertObjectToSchema`:
each member's documentation is parsed (`getJsDocFromNode`, carried on the
member), its type converted, its name pushed onto `required` when the
converted schema's `required` value is truthy, and the schema stored under
the member's name. -/
def convertProps (jsEval : String → Except String Value) (props : List TsMember)
    (path : List String) (accSchema : JsObj) (accRequired : List String) :
    Except ConvErr (JsObj × List String) :=
  match props with
  | [] => .ok (accSchema, accRequired)
  | .mk n d ty :: rest => do
    let ps ← convertTypeToSchema jsEval ty d (path ++ [n])
    let accRequired := if truthy (lookupD ps "required") then accRequired ++ [n] else accRequired
    convertProps jsEval rest path (setKey accSchema n (.obj ps)) accRequired
termination_by (sizeOf props, 0)
decreasing_by
  all_goals apply Prod.Lex.left
  all_goals simp_arith

end

/-- `convertInputIntoSchema` (lines 119-133): convert the top-level node as
an object, set `editor` to `undefined`, and merge the node's own
documentation under the result:
`{ ...getJsDocFromNode(checker, node), ...schema }`. -/
def convertInputIntoSchema (jsEval : String → Except String Value)
    (nodeDoc : JsObj) (t : TsType) : Except ConvErr JsObj := do
  let schema ← convertObjectToSchema jsEval t [] []
  let schema := setKey schema "editor" .undef
  .ok (objSpread (objSpread [] nodeDoc) schema)

/-- The tail of `getSchemaFromSourcePath` (lines 417-437): both branches
return `cleanUpSchema(schema)` — the final emitted schema of a run. -/
def getSchemaFromSource (jsEval : String → Except String Value)
    (nodeDoc : JsObj) (t : TsType) : Except ConvErr JsObj :=
  (convertInputIntoSchema jsEval nodeDoc t).map cleanUpSchema

/-! ### The documentation-tag collector `getJsDocFromNode`
(`src/unnamed/part_000` 18-50)

The regex scan over the node's leading trivia yields a stream of
`(tagName, rawValue)` matches (the raw value already stripped of the
`\n\t *` comment decoration); the embedding takes that stream as input.
For a tag in `JSDOC_PROPS_TO_EVAL` the raw value is evaluated —
`eval(JSON.parse(raw))` for `items`, `eval(raw)` otherwise — and a throw is
caught, reported (tag name, offending value, cause) and the whole run killed
with `process.exit(1)`, modelled as an `Except.error` carrying that
diagnostic. -/

/-- The evaluable tags (`src/unnamed/part_000` line 18). -/
def JSDOC_PROPS_TO_EVAL : List String :=
  ["default", "prefill", "minimum", "maximum", "enumTitles", "schemaVersion",
   "required", "items", "example"]

/-- The diagnostic printed before `process.exit(1)` when an evaluable tag's
raw value fails to evaluate: the tag name, the offending raw value, and the
underlying cause. -/
structure JsDocEvalErr where
  tag : String
  raw : String
  cause : String

/-- Evaluation of one evaluable tag: `items` goes through
`eval(JSON.parse(raw))` (JS `eval` of a non-string returns it unchanged),
every other evaluable tag through `eval(raw)`. -/
def evalJsDocTag (jsEval jsonParse : String → Except String Value)
    (name raw : String) : Except String Value :=
  if name == "items" then (jsonParse raw).bind (jsEvalValue jsEval)
  else jsEval raw

/-- The scan loop of `getJsDocFromNode`: each match stores its raw string,
then an evaluable tag replaces it with the evaluated value, a failed
evaluation aborting the run with the diagnostic. -/
def getJsDocLoop (jsEval jsonParse : String → Except String Value) :
    List (String × String) → JsObj → Except JsDocEvalErr JsObj
  | [], acc => .ok acc
  | (name, raw) :: rest, acc =>
    let acc := setKey acc name (.str raw)
    if JSDOC_PROPS_TO_EVAL.contains name then
      match evalJsDocTag jsEval jsonParse name raw with
      | .ok v => getJsDocLoop jsEval jsonParse rest (setKey acc name v)
      | .error e => .error ⟨name, raw, e⟩
    else getJsDocLoop jsEval jsonParse rest acc

/-- `getJsDocFromNode` (`src/unnamed/part_000` 20-50) on the extracted
tag/value matches of a documentation block. -/
def getJsDocFromNode (jsEval jsonParse : String → Except String Value)
    (tagMatches : List (String × String)) : Except JsDocEvalErr JsObj :=
  getJsDocLoop jsEval jsonParse tagMatches []

/-! ### The validated tag collector `convertJSDocToSchema`
(`src/unnamed/part_000` 101-178)

`symbol.getJsDocTags()` yields tag/text pairs; each text is stored as a
string (quotes stripped, trimmed — taken as given here).  The collected
mapping is validated against `JSDocPropertyInfoSchema` (the arktype shape of
lines 101-115); on a validation failure the engine prints the summary and
calls `process.exit(1)`, modelled as `Except.error`. -/

def isStrV : Value → Bool
  | .str _ => true
  | _ => false

def isStrArrV : Value → Bool
  | .arr xs => xs.all isStrV
  | _ => false

def isArrV : Value → Bool
  | .arr _ => true
  | _ => false

def isObjV : Value → Bool
  | .obj _ => true
  | _ => false

/-- The permitted shape of one tag per `JSDocPropertyInfoSchema`:
`title/description/editor/default/id/sectionCaption/sectionDescription`
are strings, `prefill/required` are `string | string[]`, `enumTitles` is
`string[]`, `uniqueItems` is `any[]`, `example` is `any`, `items` is
`object`.  Tags outside the declared shape are not constrained. -/
def tagShapeOk (k : String) (v : Value) : Bool :=
  if k == "title" || k == "description" || k == "editor" || k == "default"
      || k == "id" || k == "sectionCaption" || k == "sectionDescription" then isStrV v
  else if k == "prefill" || k == "required" then isStrV v || isStrArrV v
  else if k == "enumTitles" then isStrArrV v
  else if k == "uniqueItems" then isArrV v
  else if k == "example" then true
  else if k == "items" then isObjV v
  else true

/-- Validation of the collected tag mapping against the permitted shapes. -/
def validateJsDocInfo (fs : JsObj) : Bool :=
  fs.all (fun p => tagShapeOk p.1 p.2)

/-- The collection loop of `convertJSDocToSchema`: every tag's text becomes a
string entry. -/
def collectTags (collected : List (String × String)) : JsObj :=
  collected.foldl (fun acc p => setKey acc p.1 (.str p.2)) []

/-- `convertJSDocToSchema` (`src/unnamed/part_000` 155-178): collect the
tags, validate; on a validation failure `console.warn(summary)` then
`process.exit(1)` (modelled as `.error`); otherwise default a falsy
`description` to `""` and return the validated mapping. -/
def convertJSDocToSchema (collected : List (String × String)) : Except Unit JsObj :=
  let validated := collectTags collected
  if validateJsDocInfo validated then
    .ok (if truthy (lookupD validated "description") then validated
         else setKey validated "description" (.str ""))
  else .error ()

/-! ### The reverse emitter (`src/unnamed/part_000` 299-394)

`convertSchemaToType` renders a schema node as declaration text;
`convertJsDoccableToString` re-synthesizes the documentation block.  The
node passes through `JSON.parse(JSON.stringify(schema))` first, which drops
`undefined`-valued fields (and turns `undefined` array elements into
`null`). -/

mutual

/-- One pass of `JSON.parse(JSON.stringify(v))`. -/
def jsonRoundVal : Value → Value
  | .arr xs => .arr (jsonRoundElems xs)
  | .obj fs => .obj (jsonRoundEntries fs)
  | v => v

/-- Array elements: an `undefined` element serializes as `null`. -/
def jsonRoundElems : List Value → List Value
  | [] => []
  | x :: xs => (if isUndef x then .null else jsonRoundVal x) :: jsonRoundElems xs

/-- Object entries: an `undefined`-valued entry is dropped. -/
def jsonRoundEntries : List (String × Value) → List (String × Value)
  | [] => []
  | (k, v) :: rest =>
    if isUndef v then jsonRoundEntries rest else (k, jsonRoundVal v) :: jsonRoundEntries rest

end

/-- `JSON.parse(JSON.stringify(schema))` on a schema object. -/
def jsonRoundObj (fs : JsObj) : JsObj :=
  jsonRoundEntries fs

mutual

/-- JS template-literal coercion `${'$'}{v}` (String(v)): strings verbatim,
numbers in decimal, `true`/`false`, `undefined`/`null` spelled out, arrays
joined with `,` (with `null`/`undefined` elements blank), plain objects as
`[object Object]`. -/
def toTemplate : Value → String
  | .undef => "undefined"
  | .null => "null"
  | .bool b => if b then "true" else "false"
  | .num n => toString n
  | .str s => s
  | .arr xs => toTemplateElems xs
  | .obj _ => "[object Object]"
termination_by v => (sizeOf v, 0)

/-- `Array.prototype.toString`: `join(',')`. -/
def toTemplateElems : List Value → String
  | [] => ""
  | [x] => toTemplateElem x
  | x :: xs => toTemplateElem x ++ "," ++ toTemplateElems xs
termination_by l => (sizeOf l, 1)

/-- One joined element: `null` and `undefined` render blank inside a join. -/
def toTemplateElem : Value → String
  | .undef => ""
  | .null => ""
  | v => toTemplate v
termination_by v => (sizeOf v, 1)

end

/-- JSON string escaping for `JSON.stringify` (quote and backslash; the
engine never prints control characters). -/
def escapeJsonStr (s : String) : String :=
  s.foldl (fun acc c =>
    if c = Char.ofNat 34 then acc ++ "\\\""
    else if c = Char.ofNat 92 then acc ++ "\\\\"
    else acc.push c) ""

def quoteJson (s : String) : String :=
  "\"" ++ escapeJsonStr s ++ "\""

mutual

/-- `JSON.stringify(v)`.  (`JSON.stringify(undefined)` is the `undefined`
value itself; the one call site immediately feeds the result into a template
literal, which renders it as `undefined`, so that spelling is produced
directly.) -/
def jsonStringify : Value → String
  | .undef => "undefined"
  | .null => "null"
  | .bool b => if b then "true" else "false"
  | .num n => toString n
  | .str s => quoteJson s
  | .arr xs => "[" ++ String.intercalate "," (jsonStringifyElems xs) ++ "]"
  | .obj fs => "\x7b" ++ String.intercalate "," (jsonStringifyEntries fs) ++ "\x7d"
termination_by v => (sizeOf v, 0)

/-- Array elements (`undefined` serializes as `null`). -/
def jsonStringifyElems : List Value → List String
  | [] => []
  | x :: xs => (if isUndef x then "null" else jsonStringify x) :: jsonStringifyElems xs
termination_by l => (sizeOf l, 1)

/-- Object entries (`undefined`-valued entries are dropped). -/
def jsonStringifyEntries : List (String × Value) → List String
  | [] => []
  | (k, v) :: rest =>
    if isUndef v then jsonStringifyEntries rest
    else (quoteJson k ++ ":" ++ jsonStringify v) :: jsonStringifyEntries rest
termination_by l => (sizeOf l, 1)

end

/-- `'\t'.repeat(level)`. -/
def tabs (level : Nat) : String :=
  String.mk (List.replicate level (Char.ofNat 9))

/-- A single-quote character, used by the enum rendering. -/
def singleQuote : String :=
  String.singleton (Char.ofNat 39)

/-- The documentation-line loop of `convertJsDoccableToString`
(`src/unnamed/part_000` 304-326): `type`/`enum`/`properties` and an empty
`description` are skipped; an evaluable tag is re-serialized (`required`
becomes a bare marker when the caller-supplied flag is set and is dropped
otherwise; `default`/`prefill`/`example` of a string-typed node are wrapped
in double quotes; everything else goes through `JSON.stringify`); any other
tag is templated verbatim. -/
def jsDocLines (typeIsString : Bool) (required : Bool) (padding : String) :
    List (String × Value) → String
  | [] => ""
  | (k, v) :: rest =>
    if k == "type" || k == "enum" || k == "properties"
        || (k == "description" && eqStr v "") then
      jsDocLines typeIsString required padding rest
    else
      let fv? :=
        if JSDOC_PROPS_TO_EVAL.contains k then
          if required && k == "required" then some ""
          else if !required && k == "required" then none
          else if typeIsString && (k == "default" || k == "prefill" || k == "example") then
            some ("\"" ++ toTemplate v ++ "\"")
          else some (jsonStringify v)
        else some (toTemplate v)
      match fv? with
      | none => jsDocLines typeIsString required padding rest
      | some fv =>
        padding ++ " * @" ++ k ++ " " ++ fv ++ "\n" ++ jsDocLines typeIsString required padding rest

/-- `convertJsDoccableToString` (`src/unnamed/part_000` 299-335). -/
def convertJsDoccableToString (value : JsObj) (required : Bool) (level : Nat) : String :=
  let padding := tabs level
  padding ++ "/**\n"
  ++ jsDocLines (eqStr (lookupD value "type") "string") required padding value
  ++ (if required then padding ++ " * @required true\n" else "")
  ++ padding ++ " */\n"

/-- The two in-place `type` rewrites at the top of `convertSchemaToType`
(lines 340-355): `integer` becomes `number`; `array` becomes `string[]` when
the `editor` hint is `stringList` and `any[]` otherwise. -/
def retypeForEmit (fs : JsObj) : JsObj :=
  if eqStr (lookupD fs "type") "integer" then setKey fs "type" (.str "number")
  else if eqStr (lookupD fs "type") "array" then
    if eqStr (lookupD fs "editor") "stringList" then setKey fs "type" (.str "string[]")
    else setKey fs "type" (.str "any[]")
  else fs

/-- `required ? required.includes(name) : false` (a truthy non-array here
would crash the JS engine at `.includes`; modelled as `false`). -/
def requiredIncludes (reqV : Value) (n : String) : Bool :=
  if truthy reqV then
    match reqV with
    | .arr xs => xs.any (fun v => eqStr v n)
    | _ => false
  else false

/-- A member schema as an object (`Object.entries` of a primitive is empty,
so a non-object member behaves like an empty object at every access the
emitter performs). -/
def asObjFields : Value → JsObj
  | .obj gs => gs
  | _ => []

theorem sizeOf_lookupD_lt (fs : JsObj) (k : String) : sizeOf (lookupD fs k) < 1 + sizeOf fs := by
  induction fs with
  | nil => simp [lookupD]
  | cons p rest ih =>
    cases p with
    | mk k' v =>
      simp only [lookupD]
      split
      · simp_arith
      · calc sizeOf (lookupD rest k) < 1 + sizeOf rest := ih
          _ < 1 + sizeOf ((k', v) :: rest) := by simp_arith

theorem sizeOf_asObjFields_le (v : Value) : sizeOf (asObjFields v) ≤ sizeOf v := by
  cases v <;> simp [asObjFields] <;> simp_arith

mutual

/-- `convertSchemaToType` (`src/unnamed/part_000` 337-394).  A node whose
(rewritten) `type` is `object` and whose `id` is truthy becomes a standalone
named `type <name> = { … }` block with its members rendered recursively
(each member's `required` flag looked up in the parent's `required` list);
every other node becomes a documentation block plus a single
`name[?]: <type-expression>` line, the `?` present exactly when the
JSON-round-tripped node has a defined `default`.  (The type rewrite touches
only the `type` entry, so `properties` and `required` are read off the input
object.) -/
def convertSchemaToType (name : String) (schema : JsObj) (required : Bool) (level : Nat) : String :=
  let padding := tabs level
  let schema1 := retypeForEmit schema
  if eqStr (lookupD schema1 "type") "object" && truthy (lookupD schema1 "id") then
    let jsDoccable := jsonRoundObj schema1
    let header := convertJsDoccableToString jsDoccable false level
      ++ "type " ++ name ++ " = \x7b\n"
    -- `if (properties) { … }`: only an object's entries are iterated (the
    -- schema JSON shape makes `properties` an object whenever present)
    match hp : lookupD schema "properties" with
    | .obj pfs => header ++ renderMembers pfs (lookupD schema "required") (level + 1) ++ "\x7d"
    | _ => header ++ "\x7d"
  else
    let jsDoccable := jsonRoundObj schema1
    let requiredString := if !(isUndef (lookupD jsDoccable "default")) then "?" else ""
    convertJsDoccableToString jsDoccable required level
    ++ (match lookupD jsDoccable "enum" with
        | .arr xs =>
          padding ++ name ++ requiredString ++ ": "
            ++ String.intercalate " | " (xs.map fun e => singleQuote ++ toTemplate e ++ singleQuote)
        -- a truthy non-array `enum` would crash the JS engine at `.map`
        | _ => padding ++ name ++ requiredString ++ ": " ++ toTemplate (lookupD schema1 "type"))
termination_by sizeOf schema
decreasing_by
  have h := sizeOf_lookupD_lt schema "properties"
  rw [hp] at h
  simp_arith at h
  omega

/-- The member loop of the standalone-object branch (lines 368-372). -/
def renderMembers (pfs : List (String × Value)) (reqV : Value) (level : Nat) : String :=
  match pfs with
  | [] => ""
  | (n, p) :: rest =>
    convertSchemaToType n (asObjFields p) (requiredIncludes reqV n) level ++ "\n\n"
      ++ renderMembers rest reqV level
termination_by sizeOf pfs
decreasing_by
  all_goals simp_arith
  have h := sizeOf_asObjFields_le w
  omega

end

/-! ### SchemaProperty trees

The claims about the normalizer quantify over `SchemaProperty` trees.  The
following decidable predicate captures the input domain the JS function is
typed against and on which the embedding is exact: the keys of every
traversed object are pairwise distinct (a JS object cannot duplicate a key),
and a `properties` field, when present, is `undefined` or an object all of
whose members are themselves (recursively well-formed) objects — per the
source's types, `properties: Record<string, SchemaProperty>`. -/

def nodupKeysB : List String → Bool
  | [] => true
  | k :: ks => !(ks.contains k) && nodupKeysB ks

mutual

/-- Well-formedness of a `SchemaProperty` object. -/
def schemaOkObj (fs : JsObj) : Bool :=
  nodupKeysB (keysOf fs) && schemaOkFields fs
termination_by (sizeOf fs, 1)

def schemaOkFields : JsObj → Bool
  | [] => true
  | (k, v) :: rest =>
    (if k == "properties" then isUndef v || schemaOkProps v else true) && schemaOkFields rest
termination_by fs => (sizeOf fs, 0)

/-- The value stored under `properties` must be an object of schemas. -/
def schemaOkProps : Value → Bool
  | .obj pfs => schemaOkEntries pfs
  | _ => false
termination_by v => (sizeOf v, 0)

def schemaOkEntries : List (String × Value) → Bool
  | [] => true
  | (_, w) :: rest =>
    (match w with | .obj gs => schemaOkObj gs | _ => false) && schemaOkEntries rest
termination_by l => (sizeOf l, 0)

end

mutual

/-- `schemaOkObj` strengthened with the `SchemaProperty` typing fact that
only the `object` variant carries `properties`: any node with a `properties`
key has `type` equal to `'object'`. -/
def schemaTypedObj (fs : JsObj) : Bool :=
  nodupKeysB (keysOf fs) && (!(hasKey fs "properties") || eqStr (lookupD fs "type") "object")
    && schemaTypedFields fs
termination_by (sizeOf fs, 1)

def schemaTypedFields : JsObj → Bool
  | [] => true
  | (k, v) :: rest =>
    (if k == "properties" then isUndef v || schemaTypedProps v else true) && schemaTypedFields rest
termination_by fs => (sizeOf fs, 0)

def schemaTypedProps : Value → Bool
  | .obj pfs => schemaTypedEntries pfs
  | _ => false
termination_by v => (sizeOf v, 0)

def schemaTypedEntries : List (String × Value) → Bool
  | [] => true
  | (_, w) :: rest =>
    (match w with | .obj gs => schemaTypedObj gs | _ => false) && schemaTypedEntries rest
termination_by l => (sizeOf l, 0)

end

mutual

/-- The claimed output invariant of the normalizer: at this node and at every
node nested inside `properties` at any depth, a node whose `type` is not
`'object'` carries no `required` key at all. -/
def noReqObj (fs : JsObj) : Bool :=
  (eqStr (lookupD fs "type") "object" || !(hasKey fs "required")) && noReqFields fs
termination_by (sizeOf fs, 1)

def noReqFields : JsObj → Bool
  | [] => true
  | (k, v) :: rest =>
    (if k == "properties" then noReqProps v else true) && noReqFields rest
termination_by fs => (sizeOf fs, 0)

def noReqProps : Value → Bool
  | .obj pfs => noReqEntries pfs
  | _ => true
termination_by v => (sizeOf v, 0)

def noReqEntries : List (String × Value) → Bool
  | [] => true
  | (_, w) :: rest =>
    (match w with | .obj gs => noReqObj gs | _ => true) && noReqEntries rest
termination_by l => (sizeOf l, 0)

end

/-! ### Basic lemmas about the object model -/

@[simp] theorem lookupD_nil (k : String) : lookupD [] k = .undef := rfl

theorem lookupD_cons (k' : String) (v : Value) (rest : JsObj) (k : String) :
    lookupD ((k', v) :: rest) k = if k' = k then v else lookupD rest k := rfl

@[simp] theorem hasKey_nil (k : String) : hasKey [] k = false := rfl

theorem hasKey_cons (k' : String) (v : Value) (rest : JsObj) (k : String) :
    hasKey ((k', v) :: rest) k = (k' == k || hasKey rest k) := rfl

@[simp] theorem keysOf_nil : keysOf [] = [] := rfl

@[simp] theorem keysOf_cons (p : String × Value) (rest : JsObj) :
    keysOf (p :: rest) = p.1 :: keysOf rest := rfl

@[simp] theorem keysOf_append (fs gs : JsObj) : keysOf (fs ++ gs) = keysOf fs ++ keysOf gs := by
  simp [keysOf]

theorem hasKey_append (fs gs : JsObj) (k : String) :
    hasKey (fs ++ gs) k = (hasKey fs k || hasKey gs k) := by
  induction fs with
  | nil => simp
  | cons p rest ih =>
    cases p
    simp [hasKey_cons, ih, Bool.or_assoc]

theorem lookupD_append (fs gs : JsObj) (k : String) :
    lookupD (fs ++ gs) k = if hasKey fs k then lookupD fs k else lookupD gs k := by
  induction fs with
  | nil => simp
  | cons p rest ih =>
    cases p with
    | mk k' v =>
      by_cases h : k' = k
      · subst h
        simp [lookupD_cons, hasKey_cons]
      · simp [lookupD_cons, hasKey_cons, h, ih, beq_false_of_ne h]

theorem hasKey_iff_mem_keysOf (fs : JsObj) (k : String) :
    hasKey fs k = true ↔ k ∈ keysOf fs := by
  induction fs with
  | nil => simp
  | cons p rest ih =>
    cases p with
    | mk k' v =>
      simp only [hasKey_cons, keysOf_cons, List.mem_cons, Bool.or_eq_true, beq_iff_eq, ih]
      constructor
      · rintro (h | h)
        · exact Or.inl h.symm
        · exact Or.inr h
      · rintro (h | h)
        · exact Or.inl h.symm
        · exact Or.inr h

theorem lookupD_not_hasKey (fs : JsObj) (k : String) (h : hasKey fs k = false) :
    lookupD fs k = .undef := by
  induction fs with
  | nil => rfl
  | cons p rest ih =>
    cases p with
    | mk k' v =>
      simp only [hasKey_cons, Bool.or_eq_false_iff, beq_eq_false_iff_ne, ne_eq] at h
      simp [lookupD_cons, h.1, ih h.2]

theorem setKey_not_hasKey (fs : JsObj) (k : String) (v : Value) (h : hasKey fs k = false) :
    setKey fs k v = fs ++ [(k, v)] := by
  induction fs with
  | nil => rfl
  | cons p rest ih =>
    cases p with
    | mk k' v' =>
      simp only [hasKey_cons, Bool.or_eq_false_iff, beq_eq_false_iff_ne, ne_eq] at h
      simp [setKey, h.1, ih h.2]

@[simp] theorem lookupD_setKey_self (fs : JsObj) (k : String) (v : Value) :
    lookupD (setKey fs k v) k = v := by
  induction fs with
  | nil => simp [setKey, lookupD_cons]
  | cons p rest ih =>
    cases p with
    | mk k' v' =>
      by_cases h : k' = k
      · subst h; simp [setKey, lookupD_cons]
      · simp [setKey, h, lookupD_cons, ih]

theorem lookupD_setKey_ne (fs : JsObj) (k k' : String) (v : Value) (h : k' ≠ k) :
    lookupD (setKey fs k v) k' = lookupD fs k' := by
  induction fs with
  | nil => simp [setKey, lookupD_cons, Ne.symm h]
  | cons p rest ih =>
    cases p with
    | mk k'' v'' =>
      by_cases hk : k'' = k
      · subst hk
        simp [setKey, lookupD_cons, Ne.symm h]
      · simp [setKey, hk, lookupD_cons, ih]

theorem keysOf_setKey (fs : JsObj) (k : String) (v : Value) :
    keysOf (setKey fs k v) = if hasKey fs k then keysOf fs else keysOf fs ++ [k] := by
  induction fs with
  | nil => simp [setKey]
  | cons p rest ih =>
    cases p with
    | mk k' v' =>
      by_cases h : k' = k
      · subst h; simp [setKey, hasKey_cons]
      · simp [setKey, h, hasKey_cons, beq_false_of_ne h, ih]
        split <;> simp

theorem hasKey_setKey (fs : JsObj) (k k' : String) (v : Value) :
    hasKey (setKey fs k v) k' = (hasKey fs k' || k == k') := by
  induction fs with
  | nil => simp [setKey, hasKey_cons]
  | cons p rest ih =>
    cases p with
    | mk k'' v'' =>
      by_cases h : k'' = k
      · subst h
        simp only [setKey, if_pos rfl, hasKey_cons]
        cases hb : (k'' == k') <;> simp [hasKey_cons, hb]
      · simp only [setKey, if_neg h, hasKey_cons, ih]
        cases hb : (k'' == k') <;> simp [hb, Bool.or_assoc]

theorem hasKey_eraseKey_self (fs : JsObj) (k : String) :
    hasKey (eraseKey fs k) k = false := by
  induction fs with
  | nil => rfl
  | cons p rest ih =>
    cases p with
    | mk k' v =>
      by_cases h : k' = k
      · subst h; simpa [eraseKey] using ih
      · simpa [eraseKey, beq_false_of_ne h, hasKey_cons, h] using ih

theorem eraseKey_not_hasKey (fs : JsObj) (k : String) (h : hasKey fs k = false) :
    eraseKey fs k = fs := by
  induction fs with
  | nil => rfl
  | cons p rest ih =>
    cases p with
    | mk k' v =>
      simp only [hasKey_cons, Bool.or_eq_false_iff, beq_eq_false_iff_ne, ne_eq] at h
      simp [eraseKey, beq_false_of_ne h.1]
      simpa [eraseKey] using ih h.2

theorem lookupD_eraseKey_ne (fs : JsObj) (k k' : String) (h : k' ≠ k) :
    lookupD (eraseKey fs k) k' = lookupD fs k' := by
  induction fs with
  | nil => rfl
  | cons p rest ih =>
    cases p with
    | mk k'' v =>
      by_cases hk : k'' = k
      · subst hk
        simp [eraseKey, lookupD_cons, Ne.symm h] at ih ⊢
        simpa [eraseKey] using ih
      · by_cases hk' : k'' = k'
        · subst hk'
          simp [eraseKey, beq_false_of_ne hk, lookupD_cons]
        · simp [eraseKey, beq_false_of_ne hk, lookupD_cons, hk'] at ih ⊢
          simpa [eraseKey] using ih

theorem hasKey_eraseKey_ne (fs : JsObj) (k k' : String) (h : k' ≠ k) :
    hasKey (eraseKey fs k) k' = hasKey fs k' := by
  induction fs with
  | nil => rfl
  | cons p rest ih =>
    cases p with
    | mk k'' v =>
      by_cases hk : k'' = k
      · subst hk
        have he : eraseKey ((k'', v) :: rest) k'' = eraseKey rest k'' := by
          simp [eraseKey]
        rw [he, ih]
        simp [hasKey_cons, beq_false_of_ne (Ne.symm h)]
      · have he : eraseKey ((k'', v) :: rest) k = (k'', v) :: eraseKey rest k := by
          simp [eraseKey, beq_false_of_ne hk]
        rw [he, hasKey_cons, hasKey_cons, ih]

@[simp] theorem except_bind_ok {ε α β : Type} (a : α) (f : α → Except ε β) :
    ((Except.ok a : Except ε α) >>= f) = f a := rfl

@[simp] theorem except_bind_err {ε α β : Type} (e : ε) (f : α → Except ε β) :
    ((Except.error e : Except ε α) >>= f) = .error e := rfl

@[simp] theorem except_map_ok {ε α β : Type} (f : α → β) (a : α) :
    (Except.ok a : Except ε α).map f = .ok (f a) := rfl

theorem lookupD_objSpread_not_extra (base extra : JsObj) (k : String)
    (h : hasKey extra k = false) :
    lookupD (objSpread base extra) k = lookupD base k := by
  induction extra generalizing base with
  | nil => rfl
  | cons p rest ih =>
    cases p with
    | mk k' v =>
      simp only [hasKey_cons, Bool.or_eq_false_iff, beq_eq_false_iff_ne, ne_eq] at h
      show lookupD (objSpread (setKey base k' v) rest) k = lookupD base k
      rw [ih _ h.2, lookupD_setKey_ne _ _ _ _ (Ne.symm h.1)]

theorem hasKey_descDefault (doc : JsObj) (k : String) (h : k ≠ "description") :
    hasKey (descDefault doc) k = hasKey doc k := by
  unfold descDefault
  split
  · rw [hasKey_setKey, beq_false_of_ne (Ne.symm h), Bool.or_false]
  · rfl

theorem convertEnumlikeIntoEnum_eq (t : TsType) : convertEnumlikeIntoEnum t = t.branches := by
  cases t; rfl

/-! ### Claim C1 -/

/-- Claim C1: for a type node that is an enum, an enum-like, an enum-literal,
or a union of at least one branch that is not the two-branch boolean union,
`convertTypeToSchema` classifies the node as enum-like first (whatever its
other flags) and emits the enum schema, whose `type` is the constant
`'string'` and whose `enum` is the ordered list of the branches' literal
values.  (The documentation mapping carries no `type`/`enum` key — its
declared shape `JSDocPropertyInfo` has neither.) -/
theorem claim1_enum_classified_first (jsEval : String → Except String Value)
    (t : TsType) (doc : JsObj) (path : List String)
    (hcls : (t.flags.union = true ∧ t.flags.boolean = false ∧ t.branches ≠ [])
        ∨ t.flags.enum = true ∨ t.flags.enumLike = true ∨ t.flags.enumLiteral = true)
    (hdt : hasKey doc "type" = false) (hde : hasKey doc "enum" = false) :
    convertTypeToSchema jsEval t doc path = .ok (convertEnumlikeIntoSchema t (descDefault doc))
    ∧ lookupD (convertEnumlikeIntoSchema t (descDefault doc)) "type" = .str "string"
    ∧ lookupD (convertEnumlikeIntoSchema t (descDefault doc)) "enum" = .arr t.branches := by
  have hcond : (t.flags.enum || t.flags.enumLike || t.flags.enumLiteral
      || (t.flags.union && !t.flags.boolean)) = true := by
    rcases hcls with ⟨h1, h2, _⟩ | h | h | h
    · simp [h1, h2]
    · simp [h]
    · simp [h]
    · simp [h]
  refine ⟨?_, ?_, ?_⟩
  · unfold convertTypeToSchema
    simp only [hcond, if_pos]
  · unfold convertEnumlikeIntoSchema
    rw [lookupD_objSpread_not_extra _ _ _ (by rw [hasKey_descDefault _ _ (by decide)]; exact hdt)]
    rfl
  · unfold convertEnumlikeIntoSchema
    rw [lookupD_objSpread_not_extra _ _ _ (by rw [hasKey_descDefault _ _ (by decide)]; exact hde)]
    rw [convertEnumlikeIntoEnum_eq]
    rfl

/-- Witness for C1 at the union `'admin' | 'normal'` with an empty
documentation mapping. -/
theorem claim1_witness :
    convertTypeToSchema (fun _ => .error "no eval")
        (.node ⟨false, false, false, false, false, false, true, false, false⟩
          [.str "admin", .str "normal"] false false [])
        [] []
      = .ok (convertEnumlikeIntoSchema
          (.node ⟨false, false, false, false, false, false, true, false, false⟩
            [.str "admin", .str "normal"] false false [])
          (descDefault []))
    ∧ lookupD (convertEnumlikeIntoSchema
          (.node ⟨false, false, false, false, false, false, true, false, false⟩
            [.str "admin", .str "normal"] false false [])
          (descDefault [])) "type" = .str "string"
    ∧ lookupD (convertEnumlikeIntoSchema
          (.node ⟨false, false, false, false, false, false, true, false, false⟩
            [.str "admin", .str "normal"] false false [])
          (descDefault [])) "enum" = .arr [.str "admin", .str "normal"] :=
  claim1_enum_classified_first (fun _ => .error "no eval") _ [] []
    (Or.inl ⟨rfl, rfl, by simp [TsType.branches]⟩) rfl rfl

/-! ### Claim C9 -/

/-- Claim C9 (amended): a type node reaching the primitive classification
step whose flags carry none of `String`, `Number`, `Boolean` falls back to
`{ ...doc, type: 'string' }` — a plain value, never an error: the `type` is
the constant `'string'` and the `editor` is whatever the annotations
supplied (`convertPrimitiveToSchema` adds no `editor`). -/
theorem claim9_primitive_fallback (flags : TsFlags) (doc : JsObj)
    (hs : flags.string = false) (hn : flags.number = false) (hb : flags.boolean = false) :
    convertPrimitiveToSchema flags doc = setKey doc "type" (.str "string")
    ∧ lookupD (convertPrimitiveToSchema flags doc) "type" = .str "string"
    ∧ lookupD (convertPrimitiveToSchema flags doc) "editor" = lookupD doc "editor" := by
  unfold convertPrimitiveToSchema
  rw [hs, hn, hb]
  exact ⟨rfl, by simp, lookupD_setKey_ne _ _ _ _ (by decide)⟩

/-- Witness for C9 at an all-false flag set and empty documentation. -/
theorem claim9_witness :
    convertPrimitiveToSchema ⟨false, false, false, false, false, false, false, false, false⟩ []
      = setKey [] "type" (.str "string")
    ∧ lookupD (convertPrimitiveToSchema
        ⟨false, false, false, false, false, false, false, false, false⟩ []) "type" = .str "string"
    ∧ lookupD (convertPrimitiveToSchema
        ⟨false, false, false, false, false, false, false, false, false⟩ []) "editor"
      = lookupD [] "editor" :=
  claim9_primitive_fallback _ [] rfl rfl rfl

/-- Counterexample to C9 as stated: the fallback schema for an unrecognized
primitive kind does *not* carry `editor: 'textfield'` — with no annotations
the result is exactly `{ type: 'string' }` and its `editor` is `undefined`,
not the string `'textfield'`. -/
theorem claim9_counterexample :
    convertPrimitiveToSchema ⟨false, false, false, false, false, false, false, false, false⟩ []
      = [("type", .str "string")]
    ∧ lookupD (convertPrimitiveToSchema
        ⟨false, false, false, false, false, false, false, false, false⟩ []) "editor" = .undef
    ∧ Value.undef ≠ Value.str "textfield" := by
  refine ⟨rfl, rfl, by simp⟩

/-! ### Claim C6 -/

theorem getJsDocLoop_error_of_failing_tag (jsEval jsonParse : String → Except String Value)
    (tagMatches : List (String × String)) (nm raw cause : String)
    (hmem : (nm, raw) ∈ tagMatches)
    (heval : JSDOC_PROPS_TO_EVAL.contains nm = true)
    (hfail : evalJsDocTag jsEval jsonParse nm raw = .error cause) :
    ∀ acc : JsObj, ∃ e : JsDocEvalErr,
      getJsDocLoop jsEval jsonParse tagMatches acc = .error e
      ∧ JSDOC_PROPS_TO_EVAL.contains e.tag = true
      ∧ evalJsDocTag jsEval jsonParse e.tag e.raw = .error e.cause
      ∧ (e.tag, e.raw) ∈ tagMatches := by
  induction tagMatches with
  | nil => cases hmem
  | cons p rest ih =>
    intro acc
    cases p with
    | mk n0 r0 =>
      by_cases hc : JSDOC_PROPS_TO_EVAL.contains n0 = true
      · have hunf : getJsDocLoop jsEval jsonParse ((n0, r0) :: rest) acc
            = match evalJsDocTag jsEval jsonParse n0 r0 with
              | .ok v => getJsDocLoop jsEval jsonParse rest (setKey (setKey acc n0 (.str r0)) n0 v)
              | .error e => .error ⟨n0, r0, e⟩ := by
          simp only [getJsDocLoop]
          rw [if_pos hc]
        cases hres : evalJsDocTag jsEval jsonParse n0 r0 with
        | ok v =>
          have hne : (nm, raw) ∈ rest := by
            rcases List.mem_cons.mp hmem with heq | h
            · exfalso
              injection heq with h1 h2
              subst h1; subst h2
              rw [hfail] at hres
              cases hres
            · exact h
          obtain ⟨e, he, he1, he2, he3⟩ :=
            ih hne (setKey (setKey acc n0 (.str r0)) n0 v)
          refine ⟨e, ?_, he1, he2, List.mem_cons_of_mem _ he3⟩
          rw [hunf, hres]
          exact he
        | error msg =>
          refine ⟨⟨n0, r0, msg⟩, ?_, hc, hres, List.mem_cons_self _ _⟩
          rw [hunf, hres]
      · have hne : (nm, raw) ∈ rest := by
          rcases List.mem_cons.mp hmem with heq | h
          · exfalso
            injection heq with h1 h2
            subst h1
            exact hc heval
          · exact h
        obtain ⟨e, he, he1, he2, he3⟩ := ih hne (setKey acc n0 (.str r0))
        refine ⟨e, ?_, he1, he2, List.mem_cons_of_mem _ he3⟩
        have hunf : getJsDocLoop jsEval jsonParse ((n0, r0) :: rest) acc
            = getJsDocLoop jsEval jsonParse rest (setKey acc n0 (.str r0)) := by
          simp only [getJsDocLoop]
          rw [if_neg hc]
        rw [hunf]
        exact he

/-- Claim C6: when a documentation block contains an evaluable tag
(`default`, `prefill`, `minimum`, `maximum`, `enumTitles`, `schemaVersion`,
`required`, `items`, `example`) whose raw value fails to evaluate,
`getJsDocFromNode` aborts the whole run (`process.exit(1)`) with a
diagnostic carrying a failing tag's name, its offending raw value, and the
underlying cause — it never returns a (partial) annotation mapping. -/
theorem claim6_eval_failure_aborts (jsEval jsonParse : String → Except String Value)
    (tagMatches : List (String × String)) (nm raw cause : String)
    (hmem : (nm, raw) ∈ tagMatches)
    (heval : JSDOC_PROPS_TO_EVAL.contains nm = true)
    (hfail : evalJsDocTag jsEval jsonParse nm raw = .error cause) :
    ∃ e : JsDocEvalErr,
      getJsDocFromNode jsEval jsonParse tagMatches = .error e
      ∧ JSDOC_PROPS_TO_EVAL.contains e.tag = true
      ∧ evalJsDocTag jsEval jsonParse e.tag e.raw = .error e.cause
      ∧ (e.tag, e.raw) ∈ tagMatches :=
  getJsDocLoop_error_of_failing_tag jsEval jsonParse tagMatches nm raw cause
    hmem heval hfail []

/-- Witness for C6: a block `@title T` + `@default ]]]` under an evaluator
that throws on the malformed literal. -/
theorem claim6_witness :
    ∃ e : JsDocEvalErr,
      getJsDocFromNode (fun _ => .error "SyntaxError") (fun _ => .ok .null)
          [("title", "T"), ("default", "]]]")] = .error e
      ∧ JSDOC_PROPS_TO_EVAL.contains e.tag = true
      ∧ evalJsDocTag (fun _ => .error "SyntaxError") (fun _ => .ok .null) e.tag e.raw
          = .error e.cause
      ∧ (e.tag, e.raw) ∈ [("title", "T"), ("default", "]]]")] :=
  claim6_eval_failure_aborts (fun _ => .error "SyntaxError") (fun _ => .ok .null)
    [("title", "T"), ("default", "]]]")] "default" "]]]" "SyntaxError"
    (by simp) rfl rfl

/-! ### Claim C7 -/

/-- Counterexample to C7 as stated: a collected tag mapping that violates the
permitted tag shape (`uniqueItems` must be `any[]` but every collected value
is a string) makes `convertJSDocToSchema` of the primary variant
(`src/unnamed/part_000` lines 170-173) warn and then call `process.exit(1)`
— the engine aborts, it does not continue with the collected values. -/
theorem claim7_counterexample :
    validateJsDocInfo (collectTags [("uniqueItems", "x")]) = false
    ∧ convertJSDocToSchema [("uniqueItems", "x")] = .error () := ⟨rfl, rfl⟩

/-- Claim C7 (amended): on any collected tag mapping that violates the
permitted tag-shape schema, the primary variant's `convertJSDocToSchema`
warns and aborts the run with `process.exit(1)`; it never proceeds with the
collected values.  (The `src/index.ts` variant instead warns and continues —
the repository's variants genuinely disagree here.) -/
theorem claim7_amended_validation_failure_aborts (collected : List (String × String))
    (h : validateJsDocInfo (collectTags collected) = false) :
    convertJSDocToSchema collected = .error () := by
  unfold convertJSDocToSchema
  simp [h]

/-- Witness for the amended C7 at the violating mapping `@uniqueItems x`. -/
theorem claim7_witness :
    convertJSDocToSchema [("uniqueItems", "x")] = .error () :=
  claim7_amended_validation_failure_aborts [("uniqueItems", "x")] rfl

/-! ### Lemmas about the emitter (claims C8, C10) -/

theorem contains_false_not_mem (ks : List String) (k : String)
    (h : ks.contains k = false) : k ∉ ks := by
  induction ks with
  | nil => simp
  | cons a as ih =>
    simp only [List.contains_cons, Bool.or_eq_false_iff] at h
    intro hmem
    rcases List.mem_cons.mp hmem with heq | hm
    · subst heq
      simp at h
    · exact ih h.2 hm

theorem nodupKeysB_cons (k : String) (ks : List String)
    (h : nodupKeysB (k :: ks) = true) :
    k ∉ ks ∧ nodupKeysB ks = true := by
  simp only [nodupKeysB, Bool.and_eq_true, Bool.not_eq_true'] at h
  exact ⟨contains_false_not_mem ks k h.1, h.2⟩

theorem retypeForEmit_object (fs : JsObj) (hty : lookupD fs "type" = .str "object") :
    retypeForEmit fs = fs := by
  unfold retypeForEmit
  rw [hty]
  simp [eqStr]

theorem lookupD_retypeForEmit_ne (fs : JsObj) (k : String) (h : k ≠ "type") :
    lookupD (retypeForEmit fs) k = lookupD fs k := by
  unfold retypeForEmit
  split
  · exact lookupD_setKey_ne _ _ _ _ h
  · split
    · split <;> exact lookupD_setKey_ne _ _ _ _ h
    · rfl

theorem keysOf_jsonRoundEntries_sub (fs : JsObj) (k : String)
    (h : k ∈ keysOf (jsonRoundEntries fs)) : k ∈ keysOf fs := by
  induction fs with
  | nil => simpa [jsonRoundEntries] using h
  | cons p rest ih =>
    cases p with
    | mk k' v =>
      rw [jsonRoundEntries] at h
      by_cases hu : isUndef v = true
      · rw [if_pos hu] at h
        exact List.mem_cons_of_mem _ (ih h)
      · rw [if_neg hu] at h
        rcases List.mem_cons.mp h with heq | hmem
        · simp [heq]
        · exact List.mem_cons_of_mem _ (ih hmem)

theorem hasKey_jsonRoundEntries_false (fs : JsObj) (k : String)
    (h : hasKey fs k = false) : hasKey (jsonRoundEntries fs) k = false := by
  by_contra hc
  rw [Bool.not_eq_false] at hc
  have := keysOf_jsonRoundEntries_sub fs k ((hasKey_iff_mem_keysOf _ _).mp hc)
  rw [(hasKey_iff_mem_keysOf _ _).mpr this] at h
  cases h

theorem jsonRoundVal_isUndef (v : Value) : isUndef (jsonRoundVal v) = isUndef v := by
  cases v <;> simp [jsonRoundVal, isUndef]

theorem lookupD_jsonRoundEntries (fs : JsObj) (k : String)
    (hnd : nodupKeysB (keysOf fs) = true) :
    lookupD (jsonRoundEntries fs) k
      = if isUndef (lookupD fs k) then .undef else jsonRoundVal (lookupD fs k) := by
  induction fs with
  | nil => simp [jsonRoundEntries, isUndef]
  | cons p rest ih =>
    cases p with
    | mk k' v =>
      obtain ⟨hk, hnd'⟩ := nodupKeysB_cons _ _ hnd
      rw [jsonRoundEntries]
      by_cases heq : k' = k
      · subst heq
        by_cases hu : isUndef v = true
        · rw [if_pos hu, lookupD_cons, if_pos rfl, if_pos hu]
          have : hasKey rest k' = false := by
            by_contra hc
            rw [Bool.not_eq_false] at hc
            exact hk ((hasKey_iff_mem_keysOf _ _).mp hc)
          rw [lookupD_not_hasKey _ _ (hasKey_jsonRoundEntries_false _ _ this)]
        · rw [if_neg hu, lookupD_cons, if_pos rfl, lookupD_cons, if_pos rfl, if_neg hu]
      · by_cases hu : isUndef v = true
        · rw [if_pos hu, ih hnd', lookupD_cons, if_neg heq]
        · rw [if_neg hu, lookupD_cons, if_neg heq, lookupD_cons, if_neg heq, ih hnd']

theorem isUndef_lookupD_jsonRoundEntries (fs : JsObj) (k : String)
    (hnd : nodupKeysB (keysOf fs) = true) :
    isUndef (lookupD (jsonRoundEntries fs) k) = isUndef (lookupD fs k) := by
  rw [lookupD_jsonRoundEntries fs k hnd]
  by_cases hu : isUndef (lookupD fs k) = true
  · rw [if_pos hu, hu]; rfl
  · rw [if_neg hu, jsonRoundVal_isUndef]

/-! ### Claim C8 -/

/-- Claim C8: in `convertSchemaToType`, every node rendered as a plain
declaration line (that is, not as a standalone `type <name> = { … }` block:
the rewritten `type` is not `object`-with-truthy-`id`) gets its optional
marker `?` appended to the field name exactly when the node has a defined
`default`, and the marker is independent of the caller-supplied `required`
flag: the line after the documentation block is
`name` `?`-iff-default `: <type expression>`, where only the documentation
block depends on `required`. -/
theorem claim8_optional_marker_iff_default (name : String) (schema : JsObj) (level : Nat)
    (hnd : nodupKeysB (keysOf (retypeForEmit schema)) = true)
    (hbr : (eqStr (lookupD (retypeForEmit schema) "type") "object"
        && truthy (lookupD (retypeForEmit schema) "id")) = false) :
    ∃ (d : Bool → String) (tl : String),
      ∀ required : Bool,
        convertSchemaToType name schema required level
          = d required ++ name
            ++ (if isUndef (lookupD schema "default") then "" else "?")
            ++ ": " ++ tl := by
  have hmark : (if !(isUndef (lookupD (jsonRoundObj (retypeForEmit schema)) "default"))
        then "?" else "")
      = (if isUndef (lookupD schema "default") then "" else "?") := by
    rw [jsonRoundObj, isUndef_lookupD_jsonRoundEntries _ _ hnd,
      lookupD_retypeForEmit_ne _ _ (by decide)]
    by_cases hu : isUndef (lookupD schema "default") = true
    · rw [if_pos hu, hu]
      rfl
    · rw [if_neg hu, eq_false_of_ne_true hu]
      rfl
  refine ⟨fun req => convertJsDoccableToString (jsonRoundObj (retypeForEmit schema)) req level
      ++ tabs level,
    (match lookupD (jsonRoundObj (retypeForEmit schema)) "enum" with
     | .arr xs => String.intercalate " | " (xs.map fun e => singleQuote ++ toTemplate e
        ++ singleQuote)
     | _ => toTemplate (lookupD (retypeForEmit schema) "type")), ?_⟩
  intro required
  rw [convertSchemaToType]
  simp only [hbr, Bool.false_eq_true, if_false]
  rw [hmark]
  cases henum : lookupD (jsonRoundObj (retypeForEmit schema)) "enum" <;>
    simp [henum, String.append_assoc]

/-- Witness for C8 at the string node `{ type: 'string', default: 'x' }`. -/
theorem claim8_witness :
    ∃ (d : Bool → String) (tl : String),
      ∀ required : Bool,
        convertSchemaToType "f" [("type", .str "string"), ("default", .str "x")] required 2
          = d required ++ "f"
            ++ (if isUndef (lookupD [("type", .str "string"), ("default", .str "x")] "default")
                then "" else "?")
            ++ ": " ++ tl :=
  claim8_optional_marker_iff_default "f" [("type", .str "string"), ("default", .str "x")] 2
    (by rfl) (by rfl)

/-! ### Claim C10 -/

theorem jsDocLines_eraseProps (tIs req : Bool) (pad : String) (l : List (String × Value)) :
    jsDocLines tIs req pad l = jsDocLines tIs req pad (eraseKey l "properties") := by
  induction l with
  | nil => rfl
  | cons p rest ih =>
    cases p with
    | mk k v =>
      by_cases hk : k = "properties"
      · subst hk
        rw [jsDocLines]
        simp only [eraseKey, List.filter_cons, beq_self_eq_true, Bool.not_true, if_neg]
        · simpa [eraseKey] using ih
      · have he : eraseKey ((k, v) :: rest) "properties" = (k, v) :: eraseKey rest "properties" := by
          simp [eraseKey, beq_false_of_ne hk]
        rw [he, jsDocLines, jsDocLines]
        by_cases hsk : (k == "type" || k == "enum" || k == "properties"
            || (k == "description" && eqStr v "")) = true
        · rw [if_pos hsk, if_pos hsk, ih]
        · rw [if_neg hsk, if_neg hsk]
          cases hfv : (if JSDOC_PROPS_TO_EVAL.contains k then
              if req && k == "required" then some ""
              else if !req && k == "required" then none
              else if tIs && (k == "default" || k == "prefill" || k == "example") then
                some ("\"" ++ toTemplate v ++ "\"")
              else some (jsonStringify v)
            else some (toTemplate v)) with
          | none => rw [ih]
          | some fv => rw [ih]

theorem jsonRoundEntries_eraseKey (l : List (String × Value)) (k : String) :
    eraseKey (jsonRoundEntries l) k = jsonRoundEntries (eraseKey l k) := by
  induction l with
  | nil => rfl
  | cons p rest ih =>
    cases p with
    | mk k' v =>
      by_cases hk : k' = k
      · subst hk
        have he : eraseKey ((k', v) :: rest) k' = eraseKey rest k' := by simp [eraseKey]
        rw [he, jsonRoundEntries]
        by_cases hu : isUndef v = true
        · rw [if_pos hu, ih]
        · rw [if_neg hu]
          have he2 : eraseKey ((k', jsonRoundVal v) :: jsonRoundEntries rest) k'
              = eraseKey (jsonRoundEntries rest) k' := by simp [eraseKey]
          rw [he2, ih]
      · have he : eraseKey ((k', v) :: rest) k = (k', v) :: eraseKey rest k := by
          simp [eraseKey, beq_false_of_ne hk]
        rw [he, jsonRoundEntries, jsonRoundEntries]
        by_cases hu : isUndef v = true
        · rw [if_pos hu, if_pos hu, ih]
        · rw [if_neg hu, if_neg hu]
          have he2 : eraseKey ((k', jsonRoundVal v) :: jsonRoundEntries rest) k
              = (k', jsonRoundVal v) :: eraseKey (jsonRoundEntries rest) k := by
            simp [eraseKey, beq_false_of_ne hk]
          rw [he2, ih]

theorem eraseKey_setKey_self (fs : JsObj) (k : String) (v : Value) :
    eraseKey (setKey fs k v) k = eraseKey fs k := by
  induction fs with
  | nil => simp [setKey, eraseKey]
  | cons p rest ih =>
    cases p with
    | mk k' v' =>
      by_cases hk : k' = k
      · subst hk
        simp only [setKey, if_pos rfl]
        simp [eraseKey]
      · simp only [setKey, if_neg hk]
        have h1 : eraseKey ((k', v') :: setKey rest k v) k
            = (k', v') :: eraseKey (setKey rest k v) k := by
          simp [eraseKey, beq_false_of_ne hk]
        have h2 : eraseKey ((k', v') :: rest) k = (k', v') :: eraseKey rest k := by
          simp [eraseKey, beq_false_of_ne hk]
        rw [h1, h2, ih]

theorem contains_false_of_not_mem (ks : List String) (k : String) (h : k ∉ ks) :
    ks.contains k = false := by
  induction ks with
  | nil => rfl
  | cons a as ih =>
    simp only [List.mem_cons, not_or] at h
    simp only [List.contains_cons, Bool.or_eq_false_iff]
    refine ⟨?_, ih h.2⟩
    rw [beq_eq_false_iff_ne]
    intro hh
    exact h.1 hh

theorem nodupKeysB_append_new (ks : List String) (k : String)
    (hnd : nodupKeysB ks = true) (hk : k ∉ ks) : nodupKeysB (ks ++ [k]) = true := by
  induction ks with
  | nil => simp [nodupKeysB, List.contains_cons]
  | cons a as ih =>
    obtain ⟨ha, hnd'⟩ := nodupKeysB_cons _ _ hnd
    simp only [List.mem_cons, not_or] at hk
    have hcontains : (as ++ [k]).contains a = false := by
      refine contains_false_of_not_mem _ _ ?_
      intro hmem
      rcases List.mem_append.mp hmem with hm | hm
      · exact ha hm
      · simp only [List.mem_singleton] at hm
        exact hk.1 hm.symm
    simp only [List.cons_append, nodupKeysB]
    show (!(as ++ [k]).contains a && nodupKeysB (as ++ [k])) = true
    rw [hcontains, ih hnd' hk.2]
    rfl

/-- Claim C10: a schema node whose `type` is `object` but which carries no
truthy `id` (and, being an object-variant node, no `enum`) is not rendered
as a standalone named block: `convertSchemaToType` emits a documentation
block followed by the single field line `name[?]: object`, and the output is
completely independent of the node's `properties` value — nested member
declarations are omitted. -/
theorem claim10_object_without_id_single_line (name : String) (schema : JsObj)
    (required : Bool) (level : Nat)
    (hnd : nodupKeysB (keysOf schema) = true)
    (hty : lookupD schema "type" = .str "object")
    (hid : truthy (lookupD schema "id") = false)
    (henum : hasKey schema "enum" = false) :
    convertSchemaToType name schema required level
      = convertJsDoccableToString (jsonRoundObj schema) required level
        ++ tabs level ++ name
        ++ (if isUndef (lookupD schema "default") then "" else "?")
        ++ ": " ++ "object"
    ∧ ∀ v : Value, convertSchemaToType name (setKey schema "properties" v) required level
        = convertSchemaToType name schema required level := by
  have hmain : ∀ fs : JsObj, nodupKeysB (keysOf fs) = true →
      lookupD fs "type" = .str "object" → truthy (lookupD fs "id") = false →
      hasKey fs "enum" = false →
      convertSchemaToType name fs required level
        = convertJsDoccableToString (jsonRoundObj fs) required level
          ++ tabs level ++ name
          ++ (if isUndef (lookupD fs "default") then "" else "?")
          ++ ": " ++ "object" := by
    intro fs hnd' hty' hid' henum'
    have hre : retypeForEmit fs = fs := retypeForEmit_object _ hty'
    have hlenum : lookupD (jsonRoundObj fs) "enum" = .undef := by
      rw [jsonRoundObj]
      exact lookupD_not_hasKey _ _ (hasKey_jsonRoundEntries_false _ _ henum')
    have hmark : (if !(isUndef (lookupD (jsonRoundObj fs) "default")) then "?" else "")
        = (if isUndef (lookupD fs "default") then "" else "?") := by
      rw [jsonRoundObj, isUndef_lookupD_jsonRoundEntries _ _ hnd']
      by_cases hu : isUndef (lookupD fs "default") = true
      · rw [if_pos hu, hu]
        rfl
      · rw [if_neg hu, eq_false_of_ne_true hu]
        rfl
    rw [convertSchemaToType, hre]
    simp only [hty', hid', Bool.and_false, Bool.false_eq_true, if_false]
    rw [hmark, hlenum]
    simp [hty', String.append_assoc, toTemplate]
  refine ⟨hmain schema hnd hty hid henum, ?_⟩
  intro v
  have hty2 : lookupD (setKey schema "properties" v) "type" = .str "object" := by
    rw [lookupD_setKey_ne _ _ _ _ (by decide), hty]
  have hid2 : truthy (lookupD (setKey schema "properties" v) "id") = false := by
    rw [lookupD_setKey_ne _ _ _ _ (by decide), hid]
  have henum2 : hasKey (setKey schema "properties" v) "enum" = false := by
    rw [hasKey_setKey, henum]
    rfl
  have hnd2 : nodupKeysB (keysOf (setKey schema "properties" v)) = true := by
    rw [keysOf_setKey]
    by_cases hh : hasKey schema "properties" = true
    · rw [if_pos hh]
      exact hnd
    · rw [if_neg hh]
      refine nodupKeysB_append_new _ _ hnd ?_
      intro hmem
      rw [(hasKey_iff_mem_keysOf _ _).mpr hmem] at hh
      exact hh rfl
  rw [hmain _ hnd2 hty2 hid2 henum2, hmain schema hnd hty hid henum]
  have hdoc : convertJsDoccableToString (jsonRoundObj (setKey schema "properties" v))
        required level
      = convertJsDoccableToString (jsonRoundObj schema) required level := by
    have htis : lookupD (jsonRoundObj (setKey schema "properties" v)) "type"
        = lookupD (jsonRoundObj schema) "type" := by
      rw [jsonRoundObj, jsonRoundObj, lookupD_jsonRoundEntries _ _ hnd2,
        lookupD_jsonRoundEntries _ _ hnd, hty2, hty]
    have hlines : ∀ tIs : Bool, jsDocLines tIs required (tabs level)
          (jsonRoundObj (setKey schema "properties" v))
        = jsDocLines tIs required (tabs level) (jsonRoundObj schema) := by
      intro tIs
      rw [jsDocLines_eraseProps, jsonRoundObj, jsonRoundEntries_eraseKey,
        eraseKey_setKey_self,
        jsDocLines_eraseProps tIs required (tabs level) (jsonRoundObj schema),
        jsonRoundObj, jsonRoundEntries_eraseKey]
    rw [convertJsDoccableToString, convertJsDoccableToString, htis, hlines]
  rw [hdoc]
  have hdef : lookupD (setKey schema "properties" v) "default" = lookupD schema "default" :=
    lookupD_setKey_ne _ _ _ _ (by decide)
  rw [hdef]

/-- Witness for C10 at an object node with one member and no `id`. -/
theorem claim10_witness :
    convertSchemaToType "f"
        [("type", .str "object"),
         ("properties", .obj [("a", .obj [("type", .str "string")])]),
         ("required", .arr [])] false 1
      = convertJsDoccableToString
          (jsonRoundObj [("type", .str "object"),
            ("properties", .obj [("a", .obj [("type", .str "string")])]),
            ("required", .arr [])]) false 1
        ++ tabs 1 ++ "f"
        ++ (if isUndef (lookupD [("type", .str "object"),
              ("properties", .obj [("a", .obj [("type", .str "string")])]),
              ("required", .arr [])] "default") then "" else "?")
        ++ ": " ++ "object"
    ∧ ∀ v : Value, convertSchemaToType "f"
        (setKey [("type", .str "object"),
            ("properties", .obj [("a", .obj [("type", .str "string")])]),
            ("required", .arr [])] "properties" v) false 1
      = convertSchemaToType "f"
          [("type", .str "object"),
           ("properties", .obj [("a", .obj [("type", .str "string")])]),
           ("required", .arr [])] false 1 :=
  claim10_object_without_id_single_line "f"
    [("type", .str "object"),
     ("properties", .obj [("a", .obj [("type", .str "string")])]),
     ("required", .arr [])] false 1 rfl rfl rfl rfl

/-! ### The required-computation of `convertObjectToSchema` (claims C2, C5) -/

theorem convertProps_nil (jsEval : String → Except String Value) (path : List String)
    (accS : JsObj) (accR : List String) :
    convertProps jsEval [] path accS accR = .ok (accS, accR) := by
  rw [convertProps]

theorem convertProps_cons (jsEval : String → Except String Value) (path : List String)
    (n : String) (d : JsObj) (ty : TsType) (rest : List TsMember)
    (accS : JsObj) (accR : List String) :
    convertProps jsEval (.mk n d ty :: rest) path accS accR
      = (convertTypeToSchema jsEval ty d (path ++ [n])).bind (fun ps =>
          convertProps jsEval rest path (setKey accS n (.obj ps))
            (if truthy (lookupD ps "required") then accR ++ [n] else accR)) := by
  rw [convertProps]
  rfl

/-- The names pushed onto `required` by the property loop form a sublist of
the member names (in member order). -/
theorem convertProps_required_sublist (jsEval : String → Except String Value)
    (path : List String) :
    ∀ (props : List TsMember) (accS : JsObj) (accR : List String) (S : JsObj)
      (R : List String),
      convertProps jsEval props path accS accR = .ok (S, R) →
      ∃ newR : List String, R = accR ++ newR ∧ newR.Sublist (props.map TsMember.name) := by
  intro props
  induction props with
  | nil =>
    intro accS accR S R h
    rw [convertProps_nil] at h
    injection h with h
    injection h with h1 h2
    exact ⟨[], by simp [h2], by simp⟩
  | cons m rest ih =>
    intro accS accR S R h
    cases m with
    | mk n d ty =>
      rw [convertProps_cons] at h
      cases hc : convertTypeToSchema jsEval ty d (path ++ [n]) with
      | error e => rw [hc] at h; cases h
      | ok ps =>
        rw [hc] at h
        simp only [Except.bind] at h
        by_cases ht : truthy (lookupD ps "required") = true
        · rw [if_pos ht] at h
          obtain ⟨newR, hR, hsub⟩ := ih _ _ _ _ h
          exact ⟨n :: newR, by simp [hR], by simpa [TsMember.name] using hsub.cons₂ n⟩
        · rw [if_neg ht] at h
          obtain ⟨newR, hR, hsub⟩ := ih _ _ _ _ h
          exact ⟨newR, hR, hsub.cons n⟩

/-- After the property loop, the accumulated `schema` mapping has exactly the
keys it started with plus the member names. -/
theorem convertProps_hasKey (jsEval : String → Except String Value) (path : List String) :
    ∀ (props : List TsMember) (accS : JsObj) (accR : List String) (S : JsObj)
      (R : List String),
      convertProps jsEval props path accS accR = .ok (S, R) →
      ∀ k, hasKey S k = true ↔ (hasKey accS k = true ∨ k ∈ props.map TsMember.name) := by
  intro props
  induction props with
  | nil =>
    intro accS accR S R h k
    rw [convertProps_nil] at h
    injection h with h
    injection h with h1 h2
    simp [h1.symm]
  | cons m rest ih =>
    intro accS accR S R h k
    cases m with
    | mk n d ty =>
      rw [convertProps_cons] at h
      cases hc : convertTypeToSchema jsEval ty d (path ++ [n]) with
      | error e => rw [hc] at h; cases h
      | ok ps =>
        rw [hc] at h
        simp only [Except.bind] at h
        have := ih _ _ _ _ h k
        rw [this, hasKey_setKey]
        simp only [List.map_cons, List.mem_cons, Bool.or_eq_true, beq_iff_eq]
        constructor
        · rintro ((h1 | h1) | h1)
          · exact Or.inl h1
          · exact Or.inr (Or.inl h1.symm)
          · exact Or.inr (Or.inr h1)
        · rintro (h1 | h1 | h1)
          · exact Or.inl (Or.inl h1)
          · exact Or.inl (Or.inr h1.symm)
          · exact Or.inr h1

/-- A member whose converted schema has no truthy `required` value never ends
up in the `required` accumulator (member names pairwise distinct). -/
theorem convertProps_not_required (jsEval : String → Except String Value) (path : List String) :
    ∀ (props : List TsMember) (accS : JsObj) (accR : List String) (S : JsObj)
      (R : List String),
      (props.map TsMember.name).Nodup →
      convertProps jsEval props path accS accR = .ok (S, R) →
      ∀ m ∈ props, ∀ cs : JsObj,
        convertTypeToSchema jsEval m.ty m.jsDoc (path ++ [m.name]) = .ok cs →
        truthy (lookupD cs "required") = false →
        m.name ∉ accR → m.name ∉ R := by
  intro props
  induction props with
  | nil =>
    intro accS accR S R hnd h m hm
    cases hm
  | cons m0 rest ih =>
    intro accS accR S R hnd h m hm cs hcs hreq hacc
    cases m0 with
    | mk n d ty =>
      rw [convertProps_cons] at h
      cases hc : convertTypeToSchema jsEval ty d (path ++ [n]) with
      | error e => rw [hc] at h; cases h
      | ok ps =>
        rw [hc] at h
        simp only [Except.bind] at h
        rcases List.mem_cons.mp hm with heq | hmem
        · -- the member in question is the head
          subst heq
          simp only [TsMember.ty, TsMember.jsDoc, TsMember.name] at hcs hreq hacc ⊢
          rw [hcs] at hc
          injection hc with hc
          subst hc
          rw [if_neg (by rw [hreq]; simp)] at h
          obtain ⟨newR, hR, hsub⟩ := convertProps_required_sublist jsEval path rest _ _ _ _ h
          subst hR
          intro hctr
          rcases List.mem_append.mp hctr with h1 | h1
          · exact hacc h1
          · have : n ∈ rest.map TsMember.name := hsub.subset h1
            simp only [List.map_cons, List.nodup_cons] at hnd
            exact hnd.1 this
        · -- the member in question sits in the tail
          have hname_ne : m.name ≠ n := by
            simp only [List.map_cons, List.nodup_cons] at hnd
            intro hctr
            have hmm : m.name ∈ rest.map TsMember.name := List.mem_map_of_mem TsMember.name hmem
            rw [hctr] at hmm
            exact hnd.1 hmm
          have hnd' : (rest.map TsMember.name).Nodup := by
            simp only [List.map_cons, List.nodup_cons] at hnd
            exact hnd.2
          by_cases ht : truthy (lookupD ps "required") = true
          · rw [if_pos ht] at h
            refine ih _ _ _ _ hnd' h m hmem cs hcs hreq ?_
            intro hctr
            rcases List.mem_append.mp hctr with h1 | h1
            · exact hacc h1
            · simp only [List.mem_singleton] at h1
              exact hname_ne h1
          · rw [if_neg ht] at h
            exact ih _ _ _ _ hnd' h m hmem cs hcs hreq hacc

/-- Unfolds the non-array branch of `convertObjectToSchema` into the result
of the property loop. -/
theorem convertObjectToSchema_ok (jsEval : String → Except String Value) (t : TsType)
    (doc : JsObj) (path : List String) (r : JsObj)
    (harr : t.isArrayType = false)
    (hr : convertObjectToSchema jsEval t doc path = .ok r) :
    ∃ (S : JsObj) (R : List String),
      convertProps jsEval t.props path [] [] = .ok (S, R)
      ∧ r = setKey (objSpread [("type", .str "object"), ("properties", .obj S)] doc)
          "required" (.arr (R.map .str)) := by
  rw [convertObjectToSchema, if_neg (by simp [harr])] at hr
  cases hcp : convertProps jsEval t.props path [] [] with
  | error e => rw [hcp] at hr; cases hr
  | ok pr =>
    rw [hcp] at hr
    simp only [Except.bind] at hr
    injection hr with hr
    exact ⟨pr.1, pr.2, rfl, hr.symm⟩

/-! ### Claim C5 -/

/-- Claim C5: for every object node produced by `convertObjectToSchema` (the
non-array branch, member names pairwise distinct as they come from a symbol
table, and the node's own annotations carrying no `properties` tag — the
declared annotation shape has none), the emitted `required` list is a list
of member names each of which is a key of the sibling `properties` mapping,
with no duplicate entries. -/
theorem claim5_required_subset_nodup (jsEval : String → Except String Value) (t : TsType)
    (doc : JsObj) (path : List String) (r : JsObj)
    (harr : t.isArrayType = false)
    (hnd : (t.props.map TsMember.name).Nodup)
    (hdoc : hasKey doc "properties" = false)
    (hr : convertObjectToSchema jsEval t doc path = .ok r) :
    ∃ (S : JsObj) (R : List String),
      lookupD r "properties" = .obj S
      ∧ lookupD r "required" = .arr (R.map .str)
      ∧ R.Nodup
      ∧ ∀ n ∈ R, n ∈ keysOf S := by
  obtain ⟨S, R, hcp, hrr⟩ := convertObjectToSchema_ok jsEval t doc path r harr hr
  refine ⟨S, R, ?_, ?_, ?_, ?_⟩
  · rw [hrr, lookupD_setKey_ne _ _ _ _ (by decide),
      lookupD_objSpread_not_extra _ _ _ hdoc]
    rfl
  · rw [hrr, lookupD_setKey_self]
  · obtain ⟨newR, hR, hsub⟩ := convertProps_required_sublist jsEval path _ _ _ _ _ hcp
    rw [hR]
    simpa using hsub.nodup hnd
  · intro n hn
    obtain ⟨newR, hR, hsub⟩ := convertProps_required_sublist jsEval path _ _ _ _ _ hcp
    have hmemnames : n ∈ t.props.map TsMember.name := by
      rw [hR] at hn
      simp only [List.nil_append] at hn
      exact hsub.subset hn
    have := (convertProps_hasKey jsEval path _ _ _ _ _ hcp n).mpr (Or.inr hmemnames)
    exact (hasKey_iff_mem_keysOf S n).mp this

/-- Witness for C5: a two-field object (`a : string` with `@required true`,
`b : string`). -/
theorem claim5_witness :
    ∃ (S : JsObj) (R : List String),
      lookupD [("type", .str "object"),
               ("properties", .obj
                 [("a", .obj [("required", .bool true), ("description", .str ""),
                              ("type", .str "string")]),
                  ("b", .obj [("description", .str ""), ("type", .str "string")])]),
               ("required", .arr [.str "a"])] "properties" = .obj S
      ∧ lookupD [("type", .str "object"),
               ("properties", .obj
                 [("a", .obj [("required", .bool true), ("description", .str ""),
                              ("type", .str "string")]),
                  ("b", .obj [("description", .str ""), ("type", .str "string")])]),
               ("required", .arr [.str "a"])] "required" = .arr (R.map .str)
      ∧ R.Nodup
      ∧ ∀ n ∈ R, n ∈ keysOf S := by
  refine claim5_required_subset_nodup (fun _ => .error "no eval")
    (.node ⟨false, false, false, false, false, false, false, true, false⟩ [] false false
      [.mk "a" [("required", .bool true)]
        (.node ⟨true, false, false, false, false, false, false, false, false⟩ [] false false []),
       .mk "b" []
        (.node ⟨true, false, false, false, false, false, false, false, false⟩ [] false false [])])
    [] [] _ rfl (by simp [TsType.props, TsMember.name]) rfl ?_
  simp only [convertObjectToSchema, convertProps, convertTypeToSchema, convertPrimitiveToSchema,
    convertEnumlikeIntoSchema, descDefault, TsType.props, TsType.flags, TsType.isArrayType,
    TsType.intrinsicNameObject, TsMember.name, TsMember.jsDoc, TsMember.ty]
  simp [lookupD, setKey, truthy, isNullish, objSpread, Except.bind, Bind.bind,
    Except.instMonad]

/-! ### Claim C2 -/

/-- Counterexample to C2 as stated: in the primary variant
(`src/unnamed/part_000` line 246) the property loop pushes a field onto
`required` exactly when its converted schema's `required` value is truthy —
a `default` value does not exclude it.  A one-field object whose field is
annotated `@required true` and `@default 5` converts (through the whole
`getSchemaFromSourcePath` pipeline, `cleanUpSchema` included) to a final
schema whose `required` list contains the field name even though the field
carries a defined `default`. -/
theorem claim2_counterexample :
    getSchemaFromSource (fun s => .error s) []
        (.node ⟨false, false, false, false, false, false, false, true, false⟩ [] false false
          [.mk "f" [("required", .bool true), ("default", .num 5)]
            (.node ⟨true, false, false, false, false, false, false, false, false⟩
              [] false false [])])
      = .ok [("type", .str "object"),
             ("properties", .obj [("f", .obj
                [("type", .str "string"), ("description", .str ""), ("default", .num 5)])]),
             ("required", .arr [.str "f"])]
    ∧ lookupD [("type", .str "string"), ("description", .str ""), ("default", .num 5)] "default"
        = .num 5
    ∧ lookupD [("type", .str "object"),
             ("properties", .obj [("f", .obj
                [("type", .str "string"), ("description", .str ""), ("default", .num 5)])]),
             ("required", .arr [.str "f"])] "required" = .arr [.str "f"] := by
  refine ⟨?_, rfl, rfl⟩
  have h1 : convertTypeToSchema (fun s => .error s)
      (.node ⟨true, false, false, false, false, false, false, false, false⟩ [] false false [])
      [("required", .bool true), ("default", .num 5)] ["f"]
      = .ok [("required", .bool true), ("default", .num 5), ("description", .str ""),
             ("type", .str "string")] := by
    rw [convertTypeToSchema]
    simp [TsType.flags, TsType.intrinsicNameObject, descDefault, isNullish, lookupD, setKey,
      convertPrimitiveToSchema]
  have h2 : convertProps (fun s => .error s)
      [.mk "f" [("required", .bool true), ("default", .num 5)]
        (.node ⟨true, false, false, false, false, false, false, false, false⟩ [] false false [])]
      [] [] []
      = .ok ([("f", .obj [("required", .bool true), ("default", .num 5),
                ("description", .str ""), ("type", .str "string")])], ["f"]) := by
    rw [convertProps_cons]
    simp only [List.nil_append]
    rw [h1]
    simp [Except.bind, lookupD, truthy, setKey, convertProps_nil]
  have h3 : convertObjectToSchema (fun s => .error s)
      (.node ⟨false, false, false, false, false, false, false, true, false⟩ [] false false
        [.mk "f" [("required", .bool true), ("default", .num 5)]
          (.node ⟨true, false, false, false, false, false, false, false, false⟩
            [] false false [])])
      [] []
      = .ok [("type", .str "object"),
             ("properties", .obj [("f", .obj [("required", .bool true), ("default", .num 5),
                ("description", .str ""), ("type", .str "string")])]),
             ("required", .arr [.str "f"])] := by
    rw [convertObjectToSchema]
    simp only [TsType.isArrayType, Bool.false_eq_true, if_false, TsType.props]
    rw [h2]
    simp [Except.bind, objSpread, setKey]
  have h4 : convertInputIntoSchema (fun s => .error s) []
      (.node ⟨false, false, false, false, false, false, false, true, false⟩ [] false false
        [.mk "f" [("required", .bool true), ("default", .num 5)]
          (.node ⟨true, false, false, false, false, false, false, false, false⟩
            [] false false [])])
      = .ok [("type", .str "object"),
             ("properties", .obj [("f", .obj [("required", .bool true), ("default", .num 5),
                ("description", .str ""), ("type", .str "string")])]),
             ("required", .arr [.str "f"]), ("editor", .undef)] := by
    rw [convertInputIntoSchema]
    rw [h3]
    simp [Except.bind, setKey, objSpread]
  have hchild : cleanUpSchema
      [("required", .bool true), ("default", .num 5), ("description", .str ""),
       ("type", .str "string")]
      = [("type", .str "string"), ("description", .str ""), ("default", .num 5)] := by
    rw [cleanUpSchema]
    rfl
  have hinto : cleanInto
      [("type", .str "object"),
       ("properties", .obj [("f", .obj [("required", .bool true), ("default", .num 5),
          ("description", .str ""), ("type", .str "string")])]),
       ("required", .arr [.str "f"]), ("editor", .undef)]
      = [("type", .str "object"),
         ("properties", .obj [("f", .obj [("type", .str "string"), ("description", .str ""),
            ("default", .num 5)])]),
         ("required", .arr [.str "f"]), ("editor", .undef)] := by
    simp only [cleanInto, cleanPropsVal, cleanEntries, cleanUpVal]
    rw [hchild]
    rfl
  have h5 : cleanUpSchema
      [("type", .str "object"),
       ("properties", .obj [("f", .obj [("required", .bool true), ("default", .num 5),
          ("description", .str ""), ("type", .str "string")])]),
       ("required", .arr [.str "f"]), ("editor", .undef)]
      = [("type", .str "object"),
         ("properties", .obj [("f", .obj
            [("type", .str "string"), ("description", .str ""), ("default", .num 5)])]),
         ("required", .arr [.str "f"])] := by
    rw [cleanUpSchema, show cleanRecurses
      [("type", .str "object"),
       ("properties", .obj [("f", .obj [("required", .bool true), ("default", .num 5),
          ("description", .str ""), ("type", .str "string")])]),
       ("required", .arr [.str "f"]), ("editor", .undef)] = true from rfl]
    simp only [if_true]
    rw [hinto]
    rfl
  rw [getSchemaFromSource, h4]
  simp only [Except.map]
  rw [h5]

/-- Claim C2 (amended): in the primary variant a field's name enters the
parent object's `required` list exactly through the truthiness of the
`required` value of its converted schema; a `default` value plays no role.
In particular a field whose converted schema has no truthy `required`
(whatever its `default`) is never listed in `required`. -/
theorem claim2_amended_required_annotation_governs (jsEval : String → Except String Value)
    (t : TsType) (doc : JsObj) (path : List String) (r : JsObj)
    (harr : t.isArrayType = false)
    (hnd : (t.props.map TsMember.name).Nodup)
    (m : TsMember) (hm : m ∈ t.props) (cs : JsObj)
    (hcs : convertTypeToSchema jsEval m.ty m.jsDoc (path ++ [m.name]) = .ok cs)
    (hreq : truthy (lookupD cs "required") = false)
    (hr : convertObjectToSchema jsEval t doc path = .ok r) :
    ∀ xs : List Value, lookupD r "required" = .arr xs → .str m.name ∉ xs := by
  obtain ⟨S, R, hcp, hrr⟩ := convertObjectToSchema_ok jsEval t doc path r harr hr
  intro xs hx
  rw [hrr, lookupD_setKey_self] at hx
  injection hx with hx
  have hnotin : m.name ∉ R :=
    convertProps_not_required jsEval path t.props [] [] S R hnd hcp m hm cs hcs hreq
      (List.not_mem_nil _)
  rw [← hx]
  intro hctr
  rcases List.mem_map.mp hctr with ⟨n, hn, hns⟩
  injection hns with hns
  exact hnotin (hns ▸ hn)

/-- Witness for the amended C2: a field `g : string` with no annotations is
not listed in `required`. -/
theorem claim2_witness :
    lookupD [("type", .str "object"),
        ("properties", .obj [("g", .obj [("description", .str ""),
          ("type", .str "string")])]),
        ("required", .arr [])] "required" = .arr []
      ∧ Value.str "g" ∉ ([] : List Value) := by
  have happ : ∀ xs : List Value,
      lookupD [("type", .str "object"),
               ("properties", .obj [("g", .obj [("description", .str ""),
                  ("type", .str "string")])]),
               ("required", .arr [])] "required" = .arr xs
      → .str "g" ∉ xs := by
    refine claim2_amended_required_annotation_governs (fun _ => .error "no eval")
      (.node ⟨false, false, false, false, false, false, false, true, false⟩ [] false false
        [.mk "g" []
          (.node ⟨true, false, false, false, false, false, false, false, false⟩ [] false false [])])
      [] [] _ rfl (by simp [TsType.props, TsMember.name])
      (.mk "g" []
        (.node ⟨true, false, false, false, false, false, false, false, false⟩ [] false false []))
      (by simp [TsType.props])
      [("description", .str ""), ("type", .str "string")] ?_ rfl ?_
    · simp only [TsMember.ty, TsMember.jsDoc, TsMember.name, convertTypeToSchema,
        convertPrimitiveToSchema, descDefault, TsType.flags, TsType.intrinsicNameObject]
      simp [lookupD, setKey, isNullish]
    · simp only [convertObjectToSchema, convertProps, convertTypeToSchema,
        convertPrimitiveToSchema, descDefault, TsType.props, TsType.flags, TsType.isArrayType,
        TsType.intrinsicNameObject, TsMember.name, TsMember.jsDoc, TsMember.ty]
      simp [lookupD, setKey, truthy, isNullish, objSpread, Except.bind, Bind.bind,
        Except.instMonad]
  exact ⟨rfl, happ [] rfl⟩

/-! ### Structure of the normalizer (claims C3, C4) -/

theorem keysOf_cleanInto (l : JsObj) : keysOf (cleanInto l) = keysOf l := by
  induction l with
  | nil => rw [cleanInto]
  | cons p rest ih =>
    cases p with
    | mk k v =>
      rw [cleanInto]
      simp only [keysOf_cons, ih]

theorem hasKey_cleanInto (l : JsObj) (k : String) : hasKey (cleanInto l) k = hasKey l k := by
  by_cases h : hasKey l k = true
  · rw [h, (hasKey_iff_mem_keysOf _ _).mpr]
    rw [keysOf_cleanInto]
    exact (hasKey_iff_mem_keysOf _ _).mp h
  · rw [eq_false_of_ne_true h, ← Bool.not_eq_true]
    intro hc
    rw [hasKey_iff_mem_keysOf, keysOf_cleanInto, ← hasKey_iff_mem_keysOf] at hc
    exact h hc

theorem lookupD_cleanInto_ne (l : JsObj) (k : String) (h : k ≠ "properties") :
    lookupD (cleanInto l) k = lookupD l k := by
  induction l with
  | nil => rw [cleanInto]
  | cons p rest ih =>
    cases p with
    | mk k' v =>
      rw [cleanInto]
      by_cases hk : k' = k
      · subst hk
        rw [lookupD_cons, lookupD_cons, if_pos rfl, if_pos rfl,
          if_neg (by simpa using h)]
      · rw [lookupD_cons, lookupD_cons, if_neg hk, if_neg hk, ih]

theorem lookupD_cleanInto_props (l : JsObj) :
    lookupD (cleanInto l) "properties" = cleanPropsVal (lookupD l "properties") := by
  induction l with
  | nil =>
    rw [cleanInto]
    simp [lookupD, cleanPropsVal]
  | cons p rest ih =>
    cases p with
    | mk k' v =>
      rw [cleanInto]
      by_cases hk : k' = "properties"
      · subst hk
        rw [lookupD_cons, lookupD_cons, if_pos rfl, if_pos rfl]
        simp
      · rw [lookupD_cons, lookupD_cons, if_neg hk, if_neg hk, ih]

theorem props_entry_cleanInto (l : JsObj) (p : String × Value)
    (hp : p ∈ cleanInto l) (hk : p.1 = "properties") :
    ∃ v0, ("properties", v0) ∈ l ∧ p.2 = cleanPropsVal v0 := by
  induction l with
  | nil => rw [cleanInto] at hp; cases hp
  | cons q rest ih =>
    cases q with
    | mk k' v =>
      rw [cleanInto] at hp
      rcases List.mem_cons.mp hp with heq | hmem
      · by_cases hkk : k' = "properties"
        · subst hkk
          refine ⟨v, List.mem_cons_self _ _, ?_⟩
          rw [heq]
          simp
        · exfalso
          apply hkk
          have := congrArg Prod.fst heq
          simp only at this
          rw [this] at hk
          exact hk
      · obtain ⟨v0, hv0, hpe⟩ := ih hmem
        exact ⟨v0, List.mem_cons_of_mem _ hv0, hpe⟩

theorem cleanInto_id_of (l : JsObj)
    (h : ∀ p ∈ l, p.1 = "properties" → cleanPropsVal p.2 = p.2) : cleanInto l = l := by
  induction l with
  | nil => rw [cleanInto]
  | cons p rest ih =>
    cases p with
    | mk k v =>
      rw [cleanInto]
      by_cases hk : k = "properties"
      · rw [if_pos (by simpa using hk), h (k, v) (List.mem_cons_self _ _) hk,
          ih (fun q hq => h q (List.mem_cons_of_mem _ hq))]
      · rw [if_neg (by simpa using hk), ih (fun q hq => h q (List.mem_cons_of_mem _ hq))]

theorem lookupD_filter_key (l : JsObj) (q : String → Bool) (k : String) (hq : q k = true) :
    lookupD (l.filter (fun p => q p.1)) k = lookupD l k := by
  induction l with
  | nil => rfl
  | cons p rest ih =>
    cases p with
    | mk k' v =>
      by_cases hk : k' = k
      · subst hk
        rw [List.filter_cons, if_pos (by simpa using hq), lookupD_cons, lookupD_cons,
          if_pos rfl, if_pos rfl]
      · rw [List.filter_cons]
        by_cases hqk : q k' = true
        · rw [if_pos (by simpa using hqk), lookupD_cons, lookupD_cons, if_neg hk, if_neg hk, ih]
        · rw [if_neg (by simpa using hqk), lookupD_cons, if_neg hk, ih]

theorem hasKey_filter_imp (l : JsObj) (q : String × Value → Bool) (k : String)
    (h : hasKey (l.filter q) k = true) : hasKey l k = true := by
  induction l with
  | nil => simpa using h
  | cons p rest ih =>
    rw [List.filter_cons] at h
    by_cases hq : q p = true
    · rw [if_pos (by simpa using hq), hasKey_cons] at h
      rw [hasKey_cons]
      rcases Bool.or_eq_true_iff.mp h with h1 | h1
      · rw [h1]; rfl
      · rw [ih h1]; simp
    · rw [if_neg (by simpa using hq)] at h
      rw [hasKey_cons, ih h]
      simp

theorem keysOf_filter_key (l : JsObj) (q : String → Bool) :
    keysOf (l.filter (fun p => q p.1)) = (keysOf l).filter q := by
  induction l with
  | nil => rfl
  | cons p rest ih =>
    rw [List.filter_cons, keysOf_cons, List.filter_cons]
    by_cases hq : q p.1 = true
    · rw [if_pos (by simpa using hq), if_pos (by simpa using hq), keysOf_cons, ih]
    · rw [if_neg (by simpa using hq), if_neg (by simpa using hq), ih]

theorem lookupD_filter_nonundef (l : JsObj) (k : String)
    (hnd : nodupKeysB (keysOf l) = true) :
    lookupD (l.filter (fun p => !(isUndef p.2))) k = lookupD l k := by
  induction l with
  | nil => rfl
  | cons p rest ih =>
    cases p with
    | mk k' v =>
      obtain ⟨hk', hnd'⟩ := nodupKeysB_cons _ _ hnd
      by_cases hk : k' = k
      · subst hk
        rw [List.filter_cons]
        by_cases hu : isUndef v = true
        · rw [if_neg (by simp [hu]), lookupD_cons, if_pos rfl]
          have hv : v = .undef := by
            cases v <;> first | rfl | simp [isUndef] at hu
          rw [hv]
          have hrest : hasKey rest k' = false := by
            by_contra hc
            rw [Bool.not_eq_false] at hc
            exact hk' ((hasKey_iff_mem_keysOf _ _).mp hc)
          have hfil : hasKey (rest.filter fun p => !(isUndef p.2)) k' = false := by
            by_contra hc
            rw [Bool.not_eq_false] at hc
            rw [hasKey_filter_imp rest _ k' hc] at hrest
            cases hrest
          exact lookupD_not_hasKey _ _ hfil
        · rw [if_pos (by simp [hu]), lookupD_cons, lookupD_cons, if_pos rfl, if_pos rfl]
      · rw [List.filter_cons]
        by_cases hu : isUndef v = true
        · rw [if_neg (by simp [hu]), lookupD_cons, if_neg hk, ih hnd']
        · rw [if_pos (by simp [hu]), lookupD_cons, lookupD_cons, if_neg hk, if_neg hk, ih hnd']

theorem contains_append (xs ys : List String) (k : String) :
    (xs ++ ys).contains k = (xs.contains k || ys.contains k) := by
  induction xs with
  | nil => simp
  | cons a as ih =>
    simp only [List.cons_append, List.contains_cons, ih, Bool.or_assoc]

theorem nodupKeysB_append (ks1 ks2 : List String)
    (h1 : nodupKeysB ks1 = true) (h2 : nodupKeysB ks2 = true)
    (hdisj : ∀ k ∈ ks1, k ∉ ks2) : nodupKeysB (ks1 ++ ks2) = true := by
  induction ks1 with
  | nil => simpa using h2
  | cons a as ih =>
    obtain ⟨ha, h1'⟩ := nodupKeysB_cons _ _ h1
    have hcont : (as ++ ks2).contains a = false := by
      refine contains_false_of_not_mem _ _ ?_
      intro hmem
      rcases List.mem_append.mp hmem with hm | hm
      · exact ha hm
      · exact hdisj a (List.mem_cons_self _ _) hm
    have := ih h1' (fun k hk => hdisj k (List.mem_cons_of_mem _ hk))
    simp only [List.cons_append, nodupKeysB]
    show (!(as ++ ks2).contains a && nodupKeysB (as ++ ks2)) = true
    rw [hcont, this]
    rfl

theorem setKey_append_right (a r : JsObj) (k : String) (v : Value)
    (h : hasKey a k = false) : setKey (a ++ r) k v = a ++ setKey r k v := by
  induction a with
  | nil => rfl
  | cons p a' ih =>
    cases p with
    | mk k' v' =>
      simp only [hasKey_cons, Bool.or_eq_false_iff, beq_eq_false_iff_ne, ne_eq] at h
      simp only [List.cons_append, setKey, if_neg h.1]
      exact congrArg (List.cons (k', v')) (ih h.2)

theorem restFold_append_acc (l : JsObj) :
    ∀ (a r : JsObj),
      (∀ q ∈ l, isReorderedKey q.1 = false → hasKey a q.1 = false) →
      restFold l (a ++ r) = a ++ restFold l r := by
  induction l with
  | nil => intro a r _; rfl
  | cons p rest ih =>
    intro a r h
    show restFold rest (reorderStep (a ++ r) p) = a ++ restFold rest (reorderStep r p)
    by_cases hf : isReorderedKey p.1 = true
    · simp only [reorderStep, if_pos hf]
      exact ih a r (fun q hq => h q (List.mem_cons_of_mem _ hq))
    · simp only [reorderStep, if_neg hf]
      rw [setKey_append_right _ _ _ _ (h p (List.mem_cons_self _ _) (eq_false_of_ne_true hf))]
      exact ih a _ (fun q hq => h q (List.mem_cons_of_mem _ hq))

theorem restFold_eq_filter (l : JsObj) (hnd : nodupKeysB (keysOf l) = true) :
    restFold l [] = l.filter (fun p => !(isReorderedKey p.1)) := by
  induction l with
  | nil => rfl
  | cons p rest ih =>
    cases p with
    | mk k v =>
      obtain ⟨hk, hnd'⟩ := nodupKeysB_cons _ _ hnd
      show restFold rest (reorderStep [] (k, v)) = _
      rw [List.filter_cons]
      by_cases hf : isReorderedKey k = true
      · simp only [reorderStep, if_pos hf]
        rw [if_neg (by simp [hf])]
        exact ih hnd'
      · simp only [reorderStep, if_neg hf]
        rw [if_pos (by simp [eq_false_of_ne_true hf])]
        show restFold rest (setKey [] k v) = (k, v) :: List.filter _ rest
        have hsk : setKey ([] : JsObj) k v = [(k, v)] := rfl
        have hside : ∀ q ∈ rest, isReorderedKey q.1 = false → hasKey [(k, v)] q.1 = false := by
          intro q hq _
          rw [hasKey_cons]
          have hne : k ≠ q.1 := by
            intro hc
            apply hk
            rw [hc]
            show q.1 ∈ List.map Prod.fst rest
            exact List.mem_map_of_mem Prod.fst hq
          rw [beq_false_of_ne hne]
          rfl
        rw [hsk, show [(k, v)] = [(k, v)] ++ ([] : JsObj) from rfl,
          restFold_append_acc rest [(k, v)] [] hside, ih hnd', List.singleton_append]

theorem lookupD_reorderBase (fs : JsObj) (k : String) (h4 : isReorderedKey k = true) :
    lookupD (reorderBase fs) k = lookupD fs k := by
  simp only [isReorderedKey, Bool.or_eq_true, beq_iff_eq] at h4
  rcases h4 with ((h | h) | h) | h <;> subst h <;> rfl

theorem hasKey_reorderBase_true (fs : JsObj) (k : String) (h4 : isReorderedKey k = true) :
    hasKey (reorderBase fs) k = true := by
  simp only [isReorderedKey, Bool.or_eq_true, beq_iff_eq] at h4
  rcases h4 with ((h | h) | h) | h <;> subst h <;> rfl

theorem hasKey_reorderBase_false (fs : JsObj) (k : String) (h : isReorderedKey k = false) :
    hasKey (reorderBase fs) k = false := by
  simp only [isReorderedKey, Bool.or_eq_false_iff, beq_eq_false_iff_ne, ne_eq] at h
  obtain ⟨⟨⟨h1, h2⟩, h3⟩, h4⟩ := h
  simp only [reorderBase, hasKey_cons, hasKey_nil, Bool.or_false,
    beq_false_of_ne (Ne.symm h1), beq_false_of_ne (Ne.symm h2),
    beq_false_of_ne (Ne.symm h3), beq_false_of_ne (Ne.symm h4)]

theorem mem_reorderBase_key (fs : JsObj) (p : String × Value) (hp : p ∈ reorderBase fs) :
    isReorderedKey p.1 = true := by
  simp only [reorderBase, List.mem_cons, List.not_mem_nil, or_false] at hp
  rcases hp with h | h | h | h <;> rw [h] <;> rfl

theorem keysOf_reorderBase (fs : JsObj) :
    keysOf (reorderBase fs) = ["title", "type", "description", "editor"] := rfl

theorem cleanReorder_decomp (fs : JsObj) :
    cleanReorder fs = reorderBase fs ++ restFold fs [] := by
  have h := restFold_append_acc fs (reorderBase fs) []
    (fun q _ hnf => hasKey_reorderBase_false fs q.1 hnf)
  rw [List.append_nil] at h
  rw [cleanReorder, h]

theorem nodupKeysB_filter (ks : List String) (q : String → Bool)
    (hnd : nodupKeysB ks = true) : nodupKeysB (ks.filter q) = true := by
  induction ks with
  | nil => rfl
  | cons a as ih =>
    obtain ⟨ha, hnd'⟩ := nodupKeysB_cons _ _ hnd
    rw [List.filter_cons]
    by_cases hq : q a = true
    · rw [if_pos (by simpa using hq)]
      simp only [nodupKeysB]
      have hcont : (as.filter q).contains a = false := by
        refine contains_false_of_not_mem _ _ ?_
        intro hmem
        exact ha (List.mem_of_mem_filter hmem)
      rw [hcont, ih hnd']
      rfl
    · rw [if_neg (by simpa using hq)]
      exact ih hnd'

theorem keysOf_filter_sub (l : JsObj) (q : String × Value → Bool) (k : String)
    (h : k ∈ keysOf (l.filter q)) : k ∈ keysOf l := by
  simp only [keysOf, List.mem_map] at h ⊢
  obtain ⟨p, hp, hk⟩ := h
  exact ⟨p, List.mem_of_mem_filter hp, hk⟩

theorem nodupKeysB_entry_filter (l : JsObj) (q : String × Value → Bool)
    (hnd : nodupKeysB (keysOf l) = true) : nodupKeysB (keysOf (l.filter q)) = true := by
  induction l with
  | nil => rfl
  | cons p rest ih =>
    obtain ⟨hk, hnd'⟩ := nodupKeysB_cons _ _ hnd
    rw [List.filter_cons]
    by_cases hq : q p = true
    · rw [if_pos (by simpa using hq), keysOf_cons]
      simp only [nodupKeysB]
      have hcont : (keysOf (rest.filter q)).contains p.1 = false := by
        refine contains_false_of_not_mem _ _ ?_
        intro hmem
        exact hk (keysOf_filter_sub rest q p.1 hmem)
      rw [hcont, ih hnd']
      rfl
    · rw [if_neg (by simpa using hq)]
      exact ih hnd'

theorem nodupKeysB_eraseKey (l : JsObj) (k : String)
    (hnd : nodupKeysB (keysOf l) = true) : nodupKeysB (keysOf (eraseKey l k)) = true :=
  nodupKeysB_entry_filter l _ hnd

theorem nodupKeysB_m1 (x : JsObj) (hx : nodupKeysB (keysOf x) = true) :
    nodupKeysB (keysOf (reorderBase x ++ restFold x [])) = true := by
  rw [keysOf_append, restFold_eq_filter x hx, keysOf_reorderBase]
  refine nodupKeysB_append _ _ (by decide) ?_ ?_
  · exact nodupKeysB_entry_filter x _ hx
  · intro k hk hmem
    have hfour : isReorderedKey k = true := by
      simp only [List.mem_cons, List.not_mem_nil, or_false] at hk
      rcases hk with h | h | h | h <;> subst h <;> rfl
    simp only [keysOf, List.mem_map] at hmem
    obtain ⟨p, hp, hpe⟩ := hmem
    have := List.of_mem_filter hp
    rw [hpe] at this
    rw [hfour] at this
    cases this

theorem lookupD_m1 (x : JsObj) (k : String) (hx : nodupKeysB (keysOf x) = true) :
    lookupD (reorderBase x ++ restFold x []) k = lookupD x k := by
  rw [lookupD_append]
  by_cases h4 : isReorderedKey k = true
  · rw [if_pos (hasKey_reorderBase_true x k h4), lookupD_reorderBase x k h4]
  · rw [if_neg (by rw [hasKey_reorderBase_false x k (eq_false_of_ne_true h4)]; simp),
      restFold_eq_filter x hx,
      lookupD_filter_key x (fun s => !(isReorderedKey s)) k
        (by simp only []; rw [eq_false_of_ne_true h4]; rfl)]

theorem lookupD_cleanFinish_ne (m1 : JsObj) (k : String)
    (hnd : nodupKeysB (keysOf m1) = true) (hk : k ≠ "required") :
    lookupD (cleanFinish m1) k = lookupD m1 k := by
  rw [cleanFinish]
  by_cases hc : eqStr (lookupD m1 "type") "object" = true
  · rw [if_pos hc, lookupD_filter_nonundef _ _ hnd]
  · rw [if_neg hc, lookupD_filter_nonundef _ _ (nodupKeysB_eraseKey _ _ hnd),
      lookupD_eraseKey_ne _ _ _ hk]

theorem lookupD_cleanFinish_required (m1 : JsObj)
    (hnd : nodupKeysB (keysOf m1) = true) :
    lookupD (cleanFinish m1) "required"
      = if eqStr (lookupD m1 "type") "object" then lookupD m1 "required" else .undef := by
  rw [cleanFinish]
  by_cases hc : eqStr (lookupD m1 "type") "object" = true
  · rw [if_pos hc, if_pos hc, lookupD_filter_nonundef _ _ hnd]
  · rw [if_neg hc, if_neg hc, lookupD_filter_nonundef _ _ (nodupKeysB_eraseKey _ _ hnd),
      lookupD_not_hasKey _ _ (hasKey_eraseKey_self _ _)]

theorem hasKey_cleanFinish_required_false (m1 : JsObj)
    (h : eqStr (lookupD m1 "type") "object" = false) :
    hasKey (cleanFinish m1) "required" = false := by
  rw [cleanFinish, if_neg (by rw [h]; simp)]
  by_contra hc
  rw [Bool.not_eq_false] at hc
  have := hasKey_filter_imp _ _ _ hc
  rw [hasKey_eraseKey_self] at this
  cases this

theorem mem_cleanFinish_sub (m1 : JsObj) (p : String × Value)
    (hp : p ∈ cleanFinish m1) : p ∈ m1 := by
  rw [cleanFinish] at hp
  have h1 := List.mem_of_mem_filter hp
  by_cases hc : eqStr (lookupD m1 "type") "object" = true
  · rw [if_pos hc] at h1
    exact h1
  · rw [if_neg hc] at h1
    exact List.mem_of_mem_filter h1

theorem mem_m1_cases (x : JsObj) (p : String × Value) (hx : nodupKeysB (keysOf x) = true)
    (hp : p ∈ reorderBase x ++ restFold x []) : p ∈ reorderBase x ∨ p ∈ x := by
  rcases List.mem_append.mp hp with h | h
  · exact Or.inl h
  · rw [restFold_eq_filter x hx] at h
    exact Or.inr (List.mem_of_mem_filter h)

theorem nodupKeysB_cleanFinish (m1 : JsObj) (hnd : nodupKeysB (keysOf m1) = true) :
    nodupKeysB (keysOf (cleanFinish m1)) = true := by
  rw [cleanFinish]
  by_cases hc : eqStr (lookupD m1 "type") "object" = true
  · rw [if_pos hc]
    exact nodupKeysB_entry_filter _ _ hnd
  · rw [if_neg hc]
    exact nodupKeysB_entry_filter _ _ (nodupKeysB_eraseKey _ _ hnd)

theorem nodupKeysB_cleanUpSchema (fs : JsObj) (hnd : nodupKeysB (keysOf fs) = true) :
    nodupKeysB (keysOf (cleanUpSchema fs)) = true := by
  rw [cleanUpSchema, cleanReorder_decomp]
  have hc : nodupKeysB (keysOf (if cleanRecurses fs then cleanInto fs else fs)) = true := by
    by_cases h : cleanRecurses fs = true
    · rw [if_pos h, keysOf_cleanInto]
      exact hnd
    · rw [if_neg h]
      exact hnd
  exact nodupKeysB_cleanFinish _ (nodupKeysB_m1 _ hc)

theorem lookupD_cleanUpSchema_ne (fs : JsObj) (k : String)
    (hnd : nodupKeysB (keysOf fs) = true) (hk : k ≠ "required") :
    lookupD (cleanUpSchema fs) k
      = lookupD (if cleanRecurses fs then cleanInto fs else fs) k := by
  rw [cleanUpSchema, cleanReorder_decomp]
  have hc : nodupKeysB (keysOf (if cleanRecurses fs then cleanInto fs else fs)) = true := by
    by_cases h : cleanRecurses fs = true
    · rw [if_pos h, keysOf_cleanInto]; exact hnd
    · rw [if_neg h]; exact hnd
  rw [lookupD_cleanFinish_ne _ _ (nodupKeysB_m1 _ hc) hk, lookupD_m1 _ _ hc]

theorem lookupD_cleanUpSchema_type (fs : JsObj) (hnd : nodupKeysB (keysOf fs) = true) :
    lookupD (cleanUpSchema fs) "type" = lookupD fs "type" := by
  rw [lookupD_cleanUpSchema_ne fs _ hnd (by decide)]
  by_cases h : cleanRecurses fs = true
  · rw [if_pos h, lookupD_cleanInto_ne _ _ (by decide)]
  · rw [if_neg h]

theorem lookupD_cleanUpSchema_props (fs : JsObj) (hnd : nodupKeysB (keysOf fs) = true) :
    lookupD (cleanUpSchema fs) "properties"
      = if cleanRecurses fs then cleanPropsVal (lookupD fs "properties")
        else lookupD fs "properties" := by
  rw [lookupD_cleanUpSchema_ne fs _ hnd (by decide)]
  by_cases h : cleanRecurses fs = true
  · rw [if_pos h, if_pos h, lookupD_cleanInto_props]
  · rw [if_neg h, if_neg h]

theorem lookupD_cleanUpSchema_required (fs : JsObj) (hnd : nodupKeysB (keysOf fs) = true) :
    lookupD (cleanUpSchema fs) "required"
      = if eqStr (lookupD fs "type") "object" then lookupD fs "required" else .undef := by
  rw [cleanUpSchema, cleanReorder_decomp]
  have hc : nodupKeysB (keysOf (if cleanRecurses fs then cleanInto fs else fs)) = true := by
    by_cases h : cleanRecurses fs = true
    · rw [if_pos h, keysOf_cleanInto]; exact hnd
    · rw [if_neg h]; exact hnd
  rw [lookupD_cleanFinish_required _ (nodupKeysB_m1 _ hc), lookupD_m1 _ _ hc, lookupD_m1 _ _ hc]
  have ht : lookupD (if cleanRecurses fs then cleanInto fs else fs) "type"
      = lookupD fs "type" := by
    by_cases h : cleanRecurses fs = true
    · rw [if_pos h, lookupD_cleanInto_ne _ _ (by decide)]
    · rw [if_neg h]
  have hr : lookupD (if cleanRecurses fs then cleanInto fs else fs) "required"
      = lookupD fs "required" := by
    by_cases h : cleanRecurses fs = true
    · rw [if_pos h, lookupD_cleanInto_ne _ _ (by decide)]
    · rw [if_neg h]
  rw [ht, hr]

theorem lookupD_of_mem_nodup (l : JsObj) (p : String × Value)
    (hnd : nodupKeysB (keysOf l) = true) (hp : p ∈ l) : lookupD l p.1 = p.2 := by
  induction l with
  | nil => cases hp
  | cons q rest ih =>
    obtain ⟨hq, hnd'⟩ := nodupKeysB_cons _ _ hnd
    rcases List.mem_cons.mp hp with heq | hmem
    · subst heq
      cases p with
      | mk a b => simp [lookupD_cons]
    · cases q with
      | mk a b =>
        rw [lookupD_cons]
        have hne : a ≠ p.1 := by
          intro hc
          apply hq
          show a ∈ List.map Prod.fst rest
          rw [hc]
          exact List.mem_map_of_mem Prod.fst hmem
        rw [if_neg hne]
        exact ih hnd' hmem

theorem truthy_cleanPropsVal (v : Value) : truthy (cleanPropsVal v) = truthy v := by
  cases v <;> simp [cleanPropsVal, truthy]

theorem mem_cleanFinish_nonundef (m1 : JsObj) (p : String × Value)
    (hp : p ∈ cleanFinish m1) : isUndef p.2 = false := by
  rw [cleanFinish] at hp
  have := List.of_mem_filter hp
  simpa using this

/-- The second reorder-and-finish pass is the identity on a first pass's
output. -/
theorem cleanFinish_pass2 (x : JsObj) (hx : nodupKeysB (keysOf x) = true) :
    cleanFinish (reorderBase (cleanFinish (reorderBase x ++ restFold x []))
        ++ restFold (cleanFinish (reorderBase x ++ restFold x [])) [])
      = cleanFinish (reorderBase x ++ restFold x []) := by
  have hndm1 := nodupKeysB_m1 x hx
  have hndg := nodupKeysB_cleanFinish _ hndm1
  -- the four reordered lookups of the output agree with the input's
  have hfour : ∀ k, isReorderedKey k = true →
      lookupD (cleanFinish (reorderBase x ++ restFold x [])) k = lookupD x k := by
    intro k h4
    have hkreq : k ≠ "required" := by
      intro hc
      subst hc
      cases h4
    rw [lookupD_cleanFinish_ne _ _ hndm1 hkreq, lookupD_m1 _ _ hx]
  have hbase : reorderBase (cleanFinish (reorderBase x ++ restFold x [])) = reorderBase x := by
    have e1 := hfour "title" rfl
    have e2 := hfour "type" rfl
    have e3 := hfour "description" rfl
    have e4 := hfour "editor" rfl
    conv_lhs => rw [reorderBase]
    rw [e1, e2, e3, e4, reorderBase]
  -- decompose the first pass's output
  have hdecomp : cleanFinish (reorderBase x ++ restFold x [])
      = (reorderBase x).filter (fun p => !(isUndef p.2))
        ++ (if eqStr (lookupD x "type") "object" then restFold x []
            else eraseKey (restFold x []) "required").filter (fun p => !(isUndef p.2)) := by
    rw [cleanFinish, lookupD_append, if_pos (hasKey_reorderBase_true x "type" rfl),
      lookupD_reorderBase x "type" rfl]
    by_cases hc : eqStr (lookupD x "type") "object" = true
    · rw [if_pos hc, if_pos hc, List.filter_append]
    · rw [if_neg hc, if_neg hc]
      have herase : eraseKey (reorderBase x ++ restFold x []) "required"
          = reorderBase x ++ eraseKey (restFold x []) "required" := by
        rw [eraseKey, List.filter_append]
        rw [show List.filter (fun p => !(p.1 == "required")) (reorderBase x)
            = reorderBase x from List.filter_eq_self.mpr ?_]
        · rfl
        · intro p hp
          have h4 := mem_reorderBase_key x p hp
          have : p.1 ≠ "required" := by
            intro hc2
            rw [hc2] at h4
            cases h4
          rw [beq_false_of_ne this]
          rfl
      rw [herase, List.filter_append]
  -- the copying loop of the second pass reproduces the non-reordered tail
  have hrest : restFold (cleanFinish (reorderBase x ++ restFold x [])) []
      = (if eqStr (lookupD x "type") "object" then restFold x []
          else eraseKey (restFold x []) "required").filter (fun p => !(isUndef p.2)) := by
    rw [restFold_eq_filter _ hndg]
    conv_lhs => rw [hdecomp]
    rw [List.filter_append]
    have h1 : List.filter (fun p => !(isReorderedKey p.1))
        ((reorderBase x).filter (fun p => !(isUndef p.2))) = [] := by
      rw [List.filter_eq_nil_iff]
      intro p hp
      rw [mem_reorderBase_key x p (List.mem_of_mem_filter hp)]
      simp
    have h2 : List.filter (fun p => !(isReorderedKey p.1))
        ((if eqStr (lookupD x "type") "object" then restFold x []
          else eraseKey (restFold x []) "required").filter (fun p => !(isUndef p.2)))
        = (if eqStr (lookupD x "type") "object" then restFold x []
          else eraseKey (restFold x []) "required").filter (fun p => !(isUndef p.2)) := by
      rw [List.filter_eq_self]
      intro p hp
      have hp1 := List.mem_of_mem_filter hp
      have hp2 : p ∈ restFold x [] := by
        by_cases hc : eqStr (lookupD x "type") "object" = true
        · rw [if_pos hc] at hp1
          exact hp1
        · rw [if_neg hc] at hp1
          exact List.mem_of_mem_filter hp1
      rw [restFold_eq_filter _ hx] at hp2
      rw [List.of_mem_filter hp2]
    rw [h1, h2, List.nil_append]
  -- now close: the second finish sees the same type and an already-finished tail
  rw [hbase, hrest]
  conv_rhs => rw [hdecomp]
  rw [cleanFinish]
  have htype2 : lookupD (reorderBase x
      ++ (if eqStr (lookupD x "type") "object" then restFold x []
          else eraseKey (restFold x []) "required").filter (fun p => !(isUndef p.2))) "type"
      = lookupD x "type" := by
    rw [lookupD_append, if_pos (hasKey_reorderBase_true x "type" rfl),
      lookupD_reorderBase x "type" rfl]
  rw [htype2]
  by_cases hc : eqStr (lookupD x "type") "object" = true
  · rw [if_pos hc, if_pos hc, List.filter_append]
    congr 1
    rw [List.filter_eq_self]
    intro p hp
    have := List.of_mem_filter hp
    exact this
  · rw [if_neg hc, if_neg hc]
    have herase2 : eraseKey (reorderBase x
        ++ (eraseKey (restFold x []) "required").filter (fun p => !(isUndef p.2))) "required"
        = reorderBase x
          ++ (eraseKey (restFold x []) "required").filter (fun p => !(isUndef p.2)) := by
      rw [eraseKey, List.filter_append, List.filter_eq_self.mpr, List.filter_eq_self.mpr]
      · intro p hp
        have hp1 := List.mem_of_mem_filter hp
        rw [eraseKey] at hp1
        have := List.of_mem_filter hp1
        exact this
      · intro p hp
        have h4 := mem_reorderBase_key x p hp
        have : p.1 ≠ "required" := by
          intro hc2
          rw [hc2] at h4
          cases h4
        rw [beq_false_of_ne this]
        rfl
    rw [herase2, List.filter_append]
    congr 1
    rw [List.filter_eq_self]
    intro p hp
    simpa using List.of_mem_filter hp

theorem schemaOkObj_parts (fs : JsObj) (h : schemaOkObj fs = true) :
    nodupKeysB (keysOf fs) = true ∧ schemaOkFields fs = true := by
  rw [schemaOkObj] at h
  simpa [Bool.and_eq_true] using h

theorem schemaOkFields_mem : ∀ (l : JsObj), schemaOkFields l = true →
    ∀ p ∈ l, p.1 = "properties" → (isUndef p.2 || schemaOkProps p.2) = true := by
  intro l
  induction l with
  | nil => intro _ p hp; cases hp
  | cons q rest ih =>
    intro h p hp hk
    cases q with
    | mk k v =>
      have hsplit : (if k == "properties" then isUndef v || schemaOkProps v else true) = true
          ∧ schemaOkFields rest = true := by
        rw [schemaOkFields] at h
        simpa [Bool.and_eq_true] using h
      rcases List.mem_cons.mp hp with heq | hmem
      · subst heq
        have h1 := hsplit.1
        rw [if_pos (by simpa using hk)] at h1
        exact h1
      · exact ih hsplit.2 p hmem hk

theorem schemaOkEntries_mem : ∀ (l : List (String × Value)), schemaOkEntries l = true →
    ∀ p ∈ l, ∃ gs, p.2 = Value.obj gs ∧ schemaOkObj gs = true := by
  intro l
  induction l with
  | nil => intro _ p hp; cases hp
  | cons q rest ih =>
    intro h p hp
    cases q with
    | mk k w =>
      cases w with
      | obj gs =>
        simp only [schemaOkEntries, Bool.and_eq_true] at h
        rcases List.mem_cons.mp hp with heq | hmem
        · subst heq
          exact ⟨gs, rfl, h.1⟩
        · exact ih h.2 p hmem
      | undef => simp [schemaOkEntries] at h
      | null => simp [schemaOkEntries] at h
      | bool b => simp [schemaOkEntries] at h
      | num n => simp [schemaOkEntries] at h
      | str s => simp [schemaOkEntries] at h
      | arr a => simp [schemaOkEntries] at h

theorem sizeOf_val_lt_of_mem {l : List (String × Value)} {p : String × Value}
    (h : p ∈ l) : sizeOf p.2 < sizeOf l := by
  induction l with
  | nil => cases h
  | cons q rest ih =>
    rcases List.mem_cons.mp h with heq | hmem
    · subst heq
      cases p with
      | mk a b => simp_arith
    · calc sizeOf p.2 < sizeOf rest := ih hmem
        _ < sizeOf (q :: rest) := by simp_arith

theorem sizeOf_objFields_lt (gs : List (String × Value)) :
    sizeOf gs < sizeOf (Value.obj gs) := by
  rw [Value.obj.sizeOf_spec]
  omega

/-- Inner induction of the idempotence proof: a cleaned `properties` mapping
is unchanged by a second cleaning, given that each member's schema is. -/
theorem cleanEntries_idem_of : ∀ (pfs : List (String × Value)),
    (∀ gs : List (String × Value), sizeOf gs < sizeOf pfs → schemaOkObj gs = true →
      cleanUpSchema (cleanUpSchema gs) = cleanUpSchema gs) →
    schemaOkEntries pfs = true →
    cleanEntries (cleanEntries pfs) = cleanEntries pfs := by
  intro pfs
  induction pfs with
  | nil => intro _ _; rw [cleanEntries, cleanEntries]
  | cons q rest ihq =>
    intro hchild hok
    cases q with
    | mk k w =>
      have e1 : cleanEntries ((k, w) :: rest) = (k, cleanUpVal w) :: cleanEntries rest := by
        rw [cleanEntries]
      have htail : sizeOf rest < sizeOf ((k, w) :: rest) := by simp_arith
      cases w with
      | obj gs =>
        simp only [schemaOkEntries, Bool.and_eq_true] at hok
        have hlt : sizeOf gs < sizeOf ((k, Value.obj gs) :: rest) := by
          calc sizeOf gs < sizeOf (Value.obj gs) := sizeOf_objFields_lt gs
            _ < sizeOf ((k, Value.obj gs) :: rest) := by simp_arith
        rw [e1, cleanEntries,
          show cleanUpVal (Value.obj gs) = Value.obj (cleanUpSchema gs) from by rw [cleanUpVal],
          show cleanUpVal (Value.obj (cleanUpSchema gs))
              = Value.obj (cleanUpSchema (cleanUpSchema gs)) from by rw [cleanUpVal],
          hchild gs hlt hok.1,
          ihq (fun gs2 hsz hokgs => hchild gs2 (lt_trans hsz htail) hokgs) hok.2]
      | undef => simp [schemaOkEntries] at hok
      | null => simp [schemaOkEntries] at hok
      | bool b => simp [schemaOkEntries] at hok
      | num n => simp [schemaOkEntries] at hok
      | str s => simp [schemaOkEntries] at hok
      | arr a => simp [schemaOkEntries] at hok

theorem cleanRecurses_cleanUpSchema (fs : JsObj) (hnd : nodupKeysB (keysOf fs) = true) :
    cleanRecurses (cleanUpSchema fs) = cleanRecurses fs := by
  rw [cleanRecurses, cleanRecurses, lookupD_cleanUpSchema_type fs hnd,
    lookupD_cleanUpSchema_props fs hnd]
  by_cases h : cleanRecurses fs = true
  · rw [if_pos h, truthy_cleanPropsVal]
  · rw [if_neg h]

/-- The strong-induction core of claim C3. -/
theorem cleanIdemAux : ∀ (N : Nat) (fs : JsObj), sizeOf fs ≤ N → schemaOkObj fs = true →
    cleanUpSchema (cleanUpSchema fs) = cleanUpSchema fs := by
  intro N
  induction N using Nat.strong_induction_on with
  | _ N IH =>
    intro fs hsz hok
    obtain ⟨hnd, hflds⟩ := schemaOkObj_parts fs hok
    have hcfs : nodupKeysB (keysOf (if cleanRecurses fs then cleanInto fs else fs)) = true := by
      by_cases h : cleanRecurses fs = true
      · rw [if_pos h, keysOf_cleanInto]; exact hnd
      · rw [if_neg h]; exact hnd
    have hPV : ∀ v0 : Value, sizeOf v0 < sizeOf fs → (isUndef v0 || schemaOkProps v0) = true →
        cleanPropsVal (cleanPropsVal v0) = cleanPropsVal v0 := by
      intro v0 hvsz hvok
      cases v0 with
      | obj pfs =>
        have hent : schemaOkEntries pfs = true := by
          simpa [isUndef, schemaOkProps] using hvok
        have e1 : cleanPropsVal (Value.obj pfs) = Value.obj (cleanEntries pfs) := by
          rw [cleanPropsVal]
        have e2 : cleanPropsVal (Value.obj (cleanEntries pfs))
            = Value.obj (cleanEntries (cleanEntries pfs)) := by
          rw [cleanPropsVal]
        rw [e1, e2, cleanEntries_idem_of pfs (fun gs hsz2 hokgs =>
          IH (sizeOf gs) (lt_of_lt_of_le (lt_trans hsz2
            (lt_trans (sizeOf_objFields_lt pfs) hvsz)) hsz) gs le_rfl hokgs) hent]
      | undef => simp [cleanPropsVal]
      | null => simp [cleanPropsVal]
      | bool b => simp [cleanPropsVal]
      | num n => simp [cleanPropsVal]
      | str s => simp [cleanPropsVal]
      | arr a => simp [cleanPropsVal]
    have hid : (if cleanRecurses (cleanUpSchema fs) then cleanInto (cleanUpSchema fs)
        else cleanUpSchema fs) = cleanUpSchema fs := by
      rw [cleanRecurses_cleanUpSchema fs hnd]
      by_cases h : cleanRecurses fs = true
      · rw [if_pos h]
        apply cleanInto_id_of
        intro p hp hk
        have hpm1 : p ∈ reorderBase (if cleanRecurses fs then cleanInto fs else fs)
            ++ restFold (if cleanRecurses fs then cleanInto fs else fs) [] := by
          have := mem_cleanFinish_sub _ p (by
            rw [cleanUpSchema, cleanReorder_decomp] at hp
            exact hp)
          exact this
        rcases mem_m1_cases _ p hcfs hpm1 with hmem | hmem
        · have h4 := mem_reorderBase_key _ p hmem
          rw [hk] at h4
          exact absurd h4 (by decide)
        · rw [if_pos h] at hmem
          obtain ⟨v0, hv0mem, hpe⟩ := props_entry_cleanInto fs p hmem hk
          rw [hpe]
          exact hPV v0 (sizeOf_val_lt_of_mem hv0mem)
            (schemaOkFields_mem fs hflds ("properties", v0) hv0mem rfl)
      · rw [if_neg h]
    conv_lhs => rw [cleanUpSchema]
    rw [hid, cleanReorder_decomp]
    have hgdef : cleanUpSchema fs
        = cleanFinish (reorderBase (if cleanRecurses fs then cleanInto fs else fs)
            ++ restFold (if cleanRecurses fs then cleanInto fs else fs) []) := by
      rw [cleanUpSchema, cleanReorder_decomp]
    rw [hgdef]
    exact cleanFinish_pass2 _ hcfs

theorem schemaTypedObj_parts (fs : JsObj) (h : schemaTypedObj fs = true) :
    nodupKeysB (keysOf fs) = true
      ∧ (!(hasKey fs "properties") || eqStr (lookupD fs "type") "object") = true
      ∧ schemaTypedFields fs = true := by
  rw [schemaTypedObj] at h
  simp only [Bool.and_eq_true] at h
  exact ⟨h.1.1, h.1.2, h.2⟩

theorem schemaTypedFields_mem : ∀ (l : JsObj), schemaTypedFields l = true →
    ∀ p ∈ l, p.1 = "properties" → (isUndef p.2 || schemaTypedProps p.2) = true := by
  intro l
  induction l with
  | nil => intro _ p hp; cases hp
  | cons q rest ih =>
    intro h p hp hk
    cases q with
    | mk k v =>
      have hsplit : (if k == "properties" then isUndef v || schemaTypedProps v else true) = true
          ∧ schemaTypedFields rest = true := by
        rw [schemaTypedFields] at h
        simpa [Bool.and_eq_true] using h
      rcases List.mem_cons.mp hp with heq | hmem
      · subst heq
        have h1 := hsplit.1
        rw [if_pos (by simpa using hk)] at h1
        exact h1
      · exact ih hsplit.2 p hmem hk

theorem noReqFields_intro : ∀ (l : JsObj),
    (∀ p ∈ l, p.1 = "properties" → noReqProps p.2 = true) → noReqFields l = true := by
  intro l
  induction l with
  | nil => intro _; rw [noReqFields]
  | cons q rest ih =>
    intro h
    cases q with
    | mk k v =>
      rw [noReqFields, Bool.and_eq_true]
      refine ⟨?_, ih (fun p hp hk => h p (List.mem_cons_of_mem _ hp) hk)⟩
      by_cases hk : k = "properties"
      · rw [if_pos (by simpa using hk)]
        exact h (k, v) (List.mem_cons_self _ _) hk
      · rw [if_neg (by simpa using hk)]

/-- Inner induction of the no-`required` proof: cleaning every member of a
typed `properties` mapping yields members satisfying the invariant. -/
theorem noReqEntries_cleanEntries : ∀ (pfs : List (String × Value)),
    (∀ gs : List (String × Value), sizeOf gs < sizeOf pfs → schemaTypedObj gs = true →
      noReqObj (cleanUpSchema gs) = true) →
    schemaTypedEntries pfs = true →
    noReqEntries (cleanEntries pfs) = true := by
  intro pfs
  induction pfs with
  | nil =>
    intro _ _
    rw [cleanEntries, noReqEntries]
  | cons q rest ihq =>
    intro hchild hok
    cases q with
    | mk k w =>
      have htail : sizeOf rest < sizeOf ((k, w) :: rest) := by simp_arith
      cases w with
      | obj gs =>
        simp only [schemaTypedEntries, Bool.and_eq_true] at hok
        have hlt : sizeOf gs < sizeOf ((k, Value.obj gs) :: rest) := by
          calc sizeOf gs < sizeOf (Value.obj gs) := sizeOf_objFields_lt gs
            _ < sizeOf ((k, Value.obj gs) :: rest) := by simp_arith
        rw [cleanEntries,
          show cleanUpVal (Value.obj gs) = Value.obj (cleanUpSchema gs) from by rw [cleanUpVal]]
        rw [noReqEntries, Bool.and_eq_true]
        exact ⟨hchild gs hlt hok.1,
          ihq (fun gs2 hsz hokgs => hchild gs2 (lt_trans hsz htail) hokgs) hok.2⟩
      | undef => simp [schemaTypedEntries] at hok
      | null => simp [schemaTypedEntries] at hok
      | bool b => simp [schemaTypedEntries] at hok
      | num n => simp [schemaTypedEntries] at hok
      | str s => simp [schemaTypedEntries] at hok
      | arr a => simp [schemaTypedEntries] at hok

/-- The strong-induction core of claim C4. -/
theorem noReqAux : ∀ (N : Nat) (fs : JsObj), sizeOf fs ≤ N → schemaTypedObj fs = true →
    noReqObj (cleanUpSchema fs) = true := by
  intro N
  induction N using Nat.strong_induction_on with
  | _ N IH =>
    intro fs hsz hok
    obtain ⟨hnd, hpt, hflds⟩ := schemaTypedObj_parts fs hok
    have hcfs : nodupKeysB (keysOf (if cleanRecurses fs then cleanInto fs else fs)) = true := by
      by_cases h : cleanRecurses fs = true
      · rw [if_pos h, keysOf_cleanInto]; exact hnd
      · rw [if_neg h]; exact hnd
    have hcfstype : lookupD (if cleanRecurses fs then cleanInto fs else fs) "type"
        = lookupD fs "type" := by
      by_cases h : cleanRecurses fs = true
      · rw [if_pos h, lookupD_cleanInto_ne _ _ (by decide)]
      · rw [if_neg h]
    have htop : (eqStr (lookupD (cleanUpSchema fs) "type") "object"
        || !(hasKey (cleanUpSchema fs) "required")) = true := by
      by_cases ht : eqStr (lookupD fs "type") "object" = true
      · rw [lookupD_cleanUpSchema_type fs hnd, ht]
        rfl
      · have hreq : hasKey (cleanUpSchema fs) "required" = false := by
          rw [cleanUpSchema, cleanReorder_decomp]
          apply hasKey_cleanFinish_required_false
          rw [lookupD_m1 _ _ hcfs, hcfstype]
          exact eq_false_of_ne_true ht
        rw [hreq]
        simp
    have hfields : noReqFields (cleanUpSchema fs) = true := by
      apply noReqFields_intro
      intro p hp hk
      have hpg : p ∈ cleanFinish
          (reorderBase (if cleanRecurses fs then cleanInto fs else fs)
            ++ restFold (if cleanRecurses fs then cleanInto fs else fs) []) := by
        rw [cleanUpSchema, cleanReorder_decomp] at hp
        exact hp
      have hnonundef := mem_cleanFinish_nonundef _ p hpg
      rcases mem_m1_cases _ p hcfs (mem_cleanFinish_sub _ p hpg) with hmem | hmem
      · have h4 := mem_reorderBase_key _ p hmem
        rw [hk] at h4
        exact absurd h4 (by decide)
      · by_cases hrec : cleanRecurses fs = true
        · rw [if_pos hrec] at hmem
          obtain ⟨v0, hv0mem, hpe⟩ := props_entry_cleanInto fs p hmem hk
          have hv0ok := schemaTypedFields_mem fs hflds ("properties", v0) hv0mem rfl
          rw [hpe]
          cases v0 with
          | obj pfs =>
            have hent : schemaTypedEntries pfs = true := by
              simpa [isUndef, schemaTypedProps] using hv0ok
            rw [show cleanPropsVal (Value.obj pfs) = Value.obj (cleanEntries pfs) from by
                rw [cleanPropsVal]]
            rw [show noReqProps (Value.obj (cleanEntries pfs))
                = noReqEntries (cleanEntries pfs) from by rw [noReqProps]]
            refine noReqEntries_cleanEntries pfs (fun gs hsz2 hokgs =>
              IH (sizeOf gs) ?_ gs le_rfl hokgs) hent
            have hv0lt : sizeOf (Value.obj pfs) < sizeOf fs :=
              sizeOf_val_lt_of_mem hv0mem
            exact lt_of_lt_of_le
              (lt_trans hsz2 (lt_trans (sizeOf_objFields_lt pfs) hv0lt)) hsz
          | undef => simp [cleanPropsVal, noReqProps]
          | null => simp [cleanPropsVal, noReqProps]
          | bool b => simp [cleanPropsVal, noReqProps]
          | num n => simp [cleanPropsVal, noReqProps]
          | str s => simp [cleanPropsVal, noReqProps]
          | arr a => simp [cleanPropsVal, noReqProps]
        · rw [if_neg hrec] at hmem
          exfalso
          have hhas : hasKey fs "properties" = true := by
            rw [hasKey_iff_mem_keysOf]
            rw [← hk]
            exact List.mem_map_of_mem Prod.fst hmem
          have httype : eqStr (lookupD fs "type") "object" = true := by
            rw [hhas] at hpt
            simpa using hpt
          have htruthy : truthy (lookupD fs "properties") = false := by
            by_contra hc
            rw [Bool.not_eq_false] at hc
            apply hrec
            rw [cleanRecurses, httype, hc]
            rfl
          have hlookp : lookupD fs "properties" = p.2 := by
            rw [← hk]
            exact lookupD_of_mem_nodup fs p hnd hmem
          rw [hlookp] at htruthy
          have hpok := schemaTypedFields_mem fs hflds p hmem hk
          rcases (Bool.or_eq_true _ _).mp hpok with h1 | h2
          · rw [hnonundef] at h1
            cases h1
          · cases hval : p.2 with
            | obj pfs =>
              rw [hval] at htruthy
              simp [truthy] at htruthy
            | undef =>
              rw [hval] at hnonundef
              simp [isUndef] at hnonundef
            | null =>
              rw [hval] at h2
              simp [schemaTypedProps] at h2
            | bool b =>
              rw [hval] at h2
              simp [schemaTypedProps] at h2
            | num n =>
              rw [hval] at h2
              simp [schemaTypedProps] at h2
            | str s =>
              rw [hval] at h2
              simp [schemaTypedProps] at h2
            | arr a =>
              rw [hval] at h2
              simp [schemaTypedProps] at h2
    rw [noReqObj, htop, hfields]
    rfl

/-- **C3.** The SchemaNormalizer (`cleanUpSchema` of `src/unnamed/part_000`) is
idempotent: for every `SchemaProperty` tree (an object with duplicate-free keys
whose `properties` entries, when defined, are objects mapping names to nested
`SchemaProperty` trees, recursively), applying `cleanUpSchema` to the result of
`cleanUpSchema fs` yields a tree equal to `cleanUpSchema fs`. -/
theorem claim3_cleanUpSchema_idempotent (fs : JsObj) (h : schemaOkObj fs = true) :
    cleanUpSchema (cleanUpSchema fs) = cleanUpSchema fs :=
  cleanIdemAux (sizeOf fs) fs le_rfl h

theorem claim3_witness :
    schemaOkObj [("type", Value.str "object"),
        ("properties", Value.obj [("f", Value.obj
          [("type", Value.str "string"), ("required", Value.bool true)])]),
        ("required", Value.arr [Value.str "f"])] = true
      ∧ cleanUpSchema (cleanUpSchema [("type", Value.str "object"),
          ("properties", Value.obj [("f", Value.obj
            [("type", Value.str "string"), ("required", Value.bool true)])]),
          ("required", Value.arr [Value.str "f"])])
        = cleanUpSchema [("type", Value.str "object"),
            ("properties", Value.obj [("f", Value.obj
              [("type", Value.str "string"), ("required", Value.bool true)])]),
            ("required", Value.arr [Value.str "f"])] := by
  have h : schemaOkObj [("type", Value.str "object"),
      ("properties", Value.obj [("f", Value.obj
        [("type", Value.str "string"), ("required", Value.bool true)])]),
      ("required", Value.arr [Value.str "f"])] = true := by
    simp [schemaOkObj, schemaOkFields, schemaOkProps, schemaOkEntries, nodupKeysB, keysOf]
  exact ⟨h, claim3_cleanUpSchema_idempotent _ h⟩

/-- **C4.** For every node of the tree returned by the SchemaNormalizer
(`cleanUpSchema` of `src/unnamed/part_000`) applied to a `SchemaProperty` tree
(an object with duplicate-free keys in which a `properties` key occurs only on
nodes whose `type` is `'object'` and maps names to nested trees of the same
shape), including nodes nested inside `properties` at any depth, if the node's
`type` is not `'object'` then the node has no `required` key at all. -/
theorem claim4_no_required_outside_objects (fs : JsObj) (h : schemaTypedObj fs = true) :
    noReqObj (cleanUpSchema fs) = true :=
  noReqAux (sizeOf fs) fs le_rfl h

theorem claim4_witness :
    schemaTypedObj [("type", Value.str "object"),
        ("properties", Value.obj [("g", Value.obj
          [("type", Value.str "string"), ("required", Value.bool true)])]),
        ("required", Value.arr [Value.str "g"])] = true
      ∧ noReqObj (cleanUpSchema [("type", Value.str "object"),
          ("properties", Value.obj [("g", Value.obj
            [("type", Value.str "string"), ("required", Value.bool true)])]),
          ("required", Value.arr [Value.str "g"])]) = true := by
  have h : schemaTypedObj [("type", Value.str "object"),
      ("properties", Value.obj [("g", Value.obj
        [("type", Value.str "string"), ("required", Value.bool true)])]),
      ("required", Value.arr [Value.str "g"])] = true := by
    simp [schemaTypedObj, schemaTypedFields, schemaTypedProps, schemaTypedEntries,
      nodupKeysB, keysOf, hasKey, lookupD, eqStr]
  exact ⟨h, claim4_no_required_outside_objects _ h⟩

end InputToSchema
